import Mathlib

/-!
Verification of `mmClasicaOpenMP.c`: classical matrix multiplication with an OpenMP outer
loop.

A shallow embedding of the program `Codigo /mmClasicaOpenMP.c` and the properties the
specification states about it.

Conventions of the embedding.

* A `double *` buffer is a `List α`; a pointer into it is the offset (a `Nat`) from its
  base.  A dereference at an offset outside the buffer is the error result `none`.
* The element type `α` is abstract: the kernel only uses `0.0`, `+` and `*`, and no law
  about them is assumed unless a theorem states it.  Every theorem stated for all `α`
  therefore holds for IEEE-754 doubles with their own `+` and `*`.
* `int` values are unbounded (`Nat` for loop counters and offsets, `Int` where the sign
  matters), except the result of `atoi`, which is cut down to 32 bits.  The only `int`
  products of the program are `D*D`, `i*D` and `i*D+j`, all at most `D*D`; the
  specification leaves runs where `D*D` overflows outside the contract.
* A `for` loop whose counter is not assigned in its body is unfolded either over the list
  of the values its counter takes or over the number of iterations that remain.
* The kernel is embedded twice: as a function that executes the iterations of the outer
  loop one after the other (`multiMatrixIn`, `multiMatrix`), and as a machine in which the
  workers of the OpenMP team execute their statements interleaved (`multiMatrixPar`).  A
  team of one worker computes what the function computes (`multiMatrixPar_one_worker`),
  and so does a team of any size whose workers run one after the other
  (`multiMatrixPar_serial`).
-/

namespace MMClasica

/-! ## Memory accesses and the variables of `multiMatrix` -/

/-- One dereference made by the kernel: a load from `mA` or `mB`, or a store into `mC`,
with the offset of the element from the base of its buffer. -/
inductive Access where
  | readA (off : Nat)
  | readB (off : Nat)
  | writeC (off : Nat)
  deriving DecidableEq

/-- The storage `multiMatrix` works on apart from its read-only operands: the three
variables of line 63, `double Suma, *pA, *pB` (declared before the parallel region is
opened), and the result buffer `mC`.  `pA` and `pB` are offsets into `mA` and `mB`. -/
structure Mem (α : Type) where
  Suma : α
  pA : Nat
  pB : Nat
  mC : List α
  deriving DecidableEq

/-- Lines 72-74, `for(int k=0; k<D; k++, pA++, pB+=D) Suma += *pA * *pB;`, unfolded over
the number of iterations that remain.  Each iteration loads `*pA` and `*pB`, adds their
product to `Suma` and advances the two cursors. -/
def loopK {α : Type} [Zero α] [Add α] [Mul α] (mA mB : List α) (D : Nat) :
    Nat → Mem α → Option (Mem α × List Access)
  | 0, m => some (m, [])
  | n + 1, m =>
    match mA[m.pA]?, mB[m.pB]? with
    | some a, some b =>
      match loopK mA mB D n
          { m with Suma := m.Suma + a * b, pA := m.pA + 1, pB := m.pB + D } with
      | some (m', tr) => some (m', Access.readA m.pA :: Access.readB m.pB :: tr)
      | none => none
    | _, _ => none

/-- Lines 69-75, the body of the `j` loop: set the cursors to the start of row `i` of `mA`
and to the top of column `j` of `mB`, clear `Suma`, run the `k` loop, store `Suma` into
`mC[i*D+j]`. -/
def cellBody {α : Type} [Zero α] [Add α] [Mul α] (mA mB : List α) (D i j : Nat)
    (m : Mem α) : Option (Mem α × List Access) :=
  match loopK mA mB D D { m with pA := i * D, pB := j, Suma := 0 } with
  | none => none
  | some (m1, tr) =>
    if i * D + j < m1.mC.length then
      some ({ m1 with mC := m1.mC.set (i * D + j) m1.Suma }, tr ++ [Access.writeC (i * D + j)])
    else none

/-- Line 68, `for(int j=0; j<D; j++)`, over the list of the values `j` takes. -/
def loopJ {α : Type} [Zero α] [Add α] [Mul α] (mA mB : List α) (D i : Nat) :
    List Nat → Mem α → Option (Mem α × List Access)
  | [], m => some (m, [])
  | j :: js, m =>
    match cellBody mA mB D i j m with
    | none => none
    | some (m1, t1) =>
      match loopJ mA mB D i js m1 with
      | none => none
      | some (m2, t2) => some (m2, t1 ++ t2)

/-- One iteration of the outer loop (line 67): the whole `j` loop for row `i`. -/
def rowBody {α : Type} [Zero α] [Add α] [Mul α] (mA mB : List α) (D i : Nat)
    (m : Mem α) : Option (Mem α × List Access) :=
  loopJ mA mB D i (List.range D) m

/-- Line 67, `for(int i=0; i<D; i++)`, with its iterations executed one after the other
in the order given by the list `rows`. -/
def loopI {α : Type} [Zero α] [Add α] [Mul α] (mA mB : List α) (D : Nat) :
    List Nat → Mem α → Option (Mem α × List Access)
  | [], m => some (m, [])
  | i :: is, m =>
    match rowBody mA mB D i m with
    | none => none
    | some (m1, t1) =>
      match loopI mA mB D is m1 with
      | none => none
      | some (m2, t2) => some (m2, t1 ++ t2)

/-- The state in which `multiMatrix` starts: `Suma`, `pA` and `pB` are uninitialised (the
values chosen here are overwritten by lines 69-71 before they are read). -/
def initMem {α : Type} [Zero α] (mC : List α) : Mem α := { Suma := 0, pA := 0, pB := 0, mC := mC }

/-- The function `multiMatrix` (lines 62-79) with the iterations of the outer loop taken in the
sequential order `rows`: the final `mC` and the accesses made, in order. -/
def multiMatrixIn {α : Type} [Zero α] [Add α] [Mul α] (rows : List Nat)
    (mA mB mC : List α) (D : Nat) :
    Option (List α × List Access) :=
  match loopI mA mB D rows (initMem mC) with
  | none => none
  | some (m, tr) => some (m.mC, tr)

/-- The function `multiMatrix` (lines 62-79) run by one thread: rows `0, 1, ..., D-1` in order. -/
def multiMatrix {α : Type} [Zero α] [Add α] [Mul α] (mA mB mC : List α) (D : Nat) :
    Option (List α × List Access) :=
  multiMatrixIn (List.range D) mA mB mC D

/-- The specification's result cell, `C[i][j] = Σ_{k=0}^{N-1} A[i][k] * B[k][j]`,
accumulated from `0.0` for `k = 0, 1, ..., N-1` in that order. -/
def dotCell {α : Type} [Zero α] [Add α] [Mul α] (A B : List α) (N i j : Nat) : α :=
  (List.range N).foldl (fun s k => s + A.getD (i * N + k) 0 * B.getD (k * N + j) 0) 0

/-- The specification's reference result: the row-major matrix of all `dotCell`s, which
is what an index-based sequential triple loop produces. -/
def referenceProduct {α : Type} [Zero α] [Add α] [Mul α] (A B : List α) (N : Nat) : List α :=
  (List.range (N * N)).map (fun idx => dotCell A B N (idx / N) (idx % N))

/-- Sequential application of a list of stores `(offset, value)` to a buffer. -/
def applyWrites {α : Type} (us : List (Nat × α)) (c : List α) : List α :=
  us.foldl (fun c u => c.set u.1 u.2) c

/-! ## The accesses the specification expects -/

/-- The accesses of one output cell `(i, j)`: for `k = 0, ..., D-1` a load of
`mA[i*D+k]` and a load of `mB[j+k*D]`, then the store into `mC[i*D+j]`. -/
def cellTrace (D i j : Nat) : List Access :=
  (List.range D).flatMap (fun k => [Access.readA (i * D + k), Access.readB (j + k * D)])
    ++ [Access.writeC (i * D + j)]

/-- The accesses of outer iteration `i`: those of its cells `j = 0, ..., D-1`. -/
def rowTrace (D i : Nat) : List Access :=
  (List.range D).flatMap (cellTrace D i)

/-- The offset an access dereferences. -/
def Access.offset : Access → Nat
  | Access.readA off => off
  | Access.readB off => off
  | Access.writeC off => off

/-- The `N×N` identity matrix in row-major order: `1` on the diagonal, `0` elsewhere. -/
def identityMatrix {α : Type} [Zero α] [One α] (N : Nat) : List α :=
  (List.range (N * N)).map (fun idx => if idx / N = idx % N then 1 else 0)

/-! ## The kernel run by several workers

`#pragma omp parallel` / `#pragma omp for` (lines 64-66) hands the iterations of the `i`
loop to the workers of the team.  By the OpenMP data-sharing rules the loop counter `i`
and the counters `j` and `k`, declared inside the region, are private to each worker;
`Suma`, `pA` and `pB`, declared on line 63 before the region with no `private` clause,
are shared by all workers, as are the buffers.  The machine below runs one statement of
one worker at a time, in the order a schedule gives. -/

/-- A location of the memory shared by the workers. -/
inductive Loc where
  | Suma
  | pA
  | pB
  | mC (off : Nat)
  deriving DecidableEq

/-- The statement a worker executes next. -/
inductive Pc where
  | forI
  | forJ
  | setPA
  | setPB
  | setSuma
  | forK
  | accum
  | incPA
  | incPB
  | store
  | done
  deriving DecidableEq

/-- The private state of a worker: the row `i` it is in, the rows it has still to start
(its share of the `omp for` iterations), its counters `j` and `k`, and its next
statement. -/
structure Worker where
  i : Nat
  todo : List Nat
  j : Nat
  k : Nat
  pc : Pc
  deriving DecidableEq

/-- One statement of lines 67-76 executed by worker `w` on the shared memory `m`: the new
memory, the worker's new private state and the shared locations the statement stored to.
The loop tests `j<D` and `k<D` are steps of their own; `int k=0` is taken together with
`Suma = 0.0`, `k++` with `pA++` and `j++` with the store into `mC` (they touch private
state only).  The test `i<D` is the hand-out of the next row by the `omp for`. -/
def step {α : Type} [Zero α] [Add α] [Mul α] (mA mB : List α) (D : Nat) (m : Mem α)
    (w : Worker) : Option (Mem α × Worker × List Loc) :=
  match w.pc with
  | Pc.forI =>
    match w.todo with
    | [] => some (m, { w with pc := Pc.done }, [])
    | i :: rest => some (m, { w with i := i, todo := rest, j := 0, pc := Pc.forJ }, [])
  | Pc.forJ =>
    if w.j < D then some (m, { w with pc := Pc.setPA }, [])
    else some (m, { w with pc := Pc.forI }, [])
  | Pc.setPA => some ({ m with pA := w.i * D }, { w with pc := Pc.setPB }, [Loc.pA])
  | Pc.setPB => some ({ m with pB := w.j }, { w with pc := Pc.setSuma }, [Loc.pB])
  | Pc.setSuma => some ({ m with Suma := 0 }, { w with k := 0, pc := Pc.forK }, [Loc.Suma])
  | Pc.forK =>
    if w.k < D then some (m, { w with pc := Pc.accum }, [])
    else some (m, { w with pc := Pc.store }, [])
  | Pc.accum =>
    match mA[m.pA]?, mB[m.pB]? with
    | some a, some b =>
      some ({ m with Suma := m.Suma + a * b }, { w with pc := Pc.incPA }, [Loc.Suma])
    | _, _ => none
  | Pc.incPA =>
    some ({ m with pA := m.pA + 1 }, { w with k := w.k + 1, pc := Pc.incPB }, [Loc.pA])
  | Pc.incPB => some ({ m with pB := m.pB + D }, { w with pc := Pc.forK }, [Loc.pB])
  | Pc.store =>
    if w.i * D + w.j < m.mC.length then
      some ({ m with mC := m.mC.set (w.i * D + w.j) m.Suma },
            { w with j := w.j + 1, pc := Pc.forJ }, [Loc.mC (w.i * D + w.j)])
    else none
  | Pc.done => some (m, w, [])

/-- The shared memory, the workers of the team and the stores made so far to shared
memory, each with the number of the worker that made it, oldest first. -/
structure Config (α : Type) where
  mem : Mem α
  workers : List Worker
  log : List (Nat × Loc)

/-- Worker `t` executes its next statement (nothing happens when the team has no such
worker). -/
def stepThread {α : Type} [Zero α] [Add α] [Mul α] (mA mB : List α) (D : Nat) (t : Nat)
    (cfg : Config α) : Option (Config α) :=
  match cfg.workers[t]? with
  | none => some cfg
  | some w =>
    match step mA mB D cfg.mem w with
    | none => none
    | some (m', w', locs) =>
      some { mem := m', workers := cfg.workers.set t w',
             log := cfg.log ++ locs.map (fun l => (t, l)) }

/-- The team executes one statement after the other, each by the worker the schedule
names. -/
def runSchedule {α : Type} [Zero α] [Add α] [Mul α] (mA mB : List α) (D : Nat) :
    List Nat → Config α → Option (Config α)
  | [], cfg => some cfg
  | t :: ts, cfg =>
    match stepThread mA mB D t cfg with
    | none => none
    | some cfg' => runSchedule mA mB D ts cfg'

/-- The team at the start of the parallel region: worker `t` is given the rows
`assign[t]` and stands before its first iteration. -/
def startConfig {α : Type} [Zero α] (assign : List (List Nat)) (mC : List α) : Config α :=
  { mem := initMem mC,
    workers := assign.map (fun rows => { i := 0, todo := rows, j := 0, k := 0, pc := Pc.forI }),
    log := [] }

/-- Every worker has reached the end of the parallel region. -/
def Config.finished {α : Type} (cfg : Config α) : Bool :=
  cfg.workers.all (fun w => w.pc = Pc.done)

/-- The function `multiMatrix` run by a team: the rows are shared out as `assign` says and the
statements interleave as `sched` says.  The result is the configuration reached. -/
def multiMatrixPar {α : Type} [Zero α] [Add α] [Mul α] (assign : List (List Nat))
    (sched : List Nat) (mA mB mC : List α) (D : Nat) : Option (Config α) :=
  runSchedule mA mB D sched (startConfig assign mC)

/-- The schedule that lets worker `t` run `n` statements in a row, for each `(t, n)` of
the list in turn. -/
def bursts (bs : List (Nat × Nat)) : List Nat :=
  bs.flatMap (fun b => List.replicate b.2 b.1)

/-- The schedule in which the workers `t, t+1, ...` of a team run one after the other,
each for as many statements as the rows it was given take. -/
def serialSchedule (D : Nat) : Nat → List (List Nat) → List Nat
  | _, [] => []
  | t, rows :: rest =>
    List.replicate (rows.length * (D * (4 * D + 6) + 2) + 1) t ++ serialSchedule D (t + 1) rest

/-- Worker `w` alone executes `n` statements in a row. -/
def iterStep {α : Type} [Zero α] [Add α] [Mul α] (mA mB : List α) (D : Nat) :
    Nat → Mem α × Worker → Option (Mem α × Worker)
  | 0, s => some s
  | n + 1, s =>
    match step mA mB D s.1 s.2 with
    | none => none
    | some (m', w', _) => iterStep mA mB D n (m', w')

/-- What holds of a worker that was given the rows `rows`, whatever the other workers do:
the rows it has still to start are among `rows`, and once inside the `i` loop its row is
one of `rows` and, past the test of the `j` loop, its column is inside the matrix. -/
def WorkerInv (D : Nat) (rows : List Nat) (w : Worker) : Prop :=
  (∀ x ∈ w.todo, x ∈ rows) ∧
    (w.pc = Pc.forI ∨ w.pc = Pc.done ∨ (w.i ∈ rows ∧ (w.pc = Pc.forJ ∨ w.j < D)))

/-- The store goes to `Suma`, `pA` or `pB`, or into a cell of a row of `rows`. -/
def StoreInRows (D : Nat) (rows : List Nat) (l : Loc) : Prop :=
  ∀ off, l = Loc.mC off → ∃ i j, i ∈ rows ∧ j < D ∧ off = i * D + j

/-- What holds of a team in every configuration it reaches: each worker satisfies
`WorkerInv` for the rows it was given, and each store logged so far went to `Suma`, `pA`,
`pB` or into a row of the worker that made it. -/
def ConfigInv {α : Type} (D : Nat) (assign : List (List Nat)) (cfg : Config α) : Prop :=
  (∀ (t : Nat) (w : Worker), cfg.workers[t]? = some w →
    ∃ rows, assign[t]? = some rows ∧ WorkerInv D rows w) ∧
  (∀ e ∈ cfg.log, ∃ rows, assign[e.1]? = some rows ∧ StoreInRows D rows e.2)

/-- The shared locations worker `t` stored to, each listed once. -/
def storedBy (log : List (Nat × Loc)) (t : Nat) : List Loc :=
  ((log.filter (fun e => e.1 = t)).map Prod.snd).dedup

/-- The shared locations that worker `t` and worker `u` both stored to. -/
def storedByBoth (log : List (Nat × Loc)) (t u : Nat) : List Loc :=
  (storedBy log t).filter (fun l => l ∈ storedBy log u)

/-! ## The timing harness -/

/-- The type `struct timeval`: seconds (`time_t`) and microseconds (`suseconds_t`), both 64-bit
signed integers (`long`). -/
structure Timeval where
  tv_sec : Int
  tv_usec : Int
  deriving DecidableEq

/-- The value a 64-bit two's-complement register holds for the integer `x`. -/
def wrapLong (x : Int) : Int :=
  (x + 2 ^ 63) % 2 ^ 64 - 2 ^ 63

/-- The value of `(double) x` for a `long` `x`, as the integer it is: `x` itself up to
magnitude `2^53`, else `x` rounded to 53 significant bits, ties to even. -/
def castDouble (x : Int) : Int :=
  let n := x.natAbs
  if n ≤ 2 ^ 53 then x
  else
    let e := ((List.range 12).find? (fun e => n < 2 ^ (53 + e))).getD 11
    let q := n / 2 ^ e
    let r := n % 2 ^ e
    let half := 2 ^ (e - 1)
    let q' := if half < r ∨ (r = half ∧ q % 2 = 1) then q + 1 else q
    Int.sign x * ((q' * 2 ^ e : Nat) : Int)

/-- The globals of line 18, `struct timeval inicio, fin;`. -/
structure Clock where
  inicio : Timeval
  fin : Timeval
  deriving DecidableEq

/-- The function `InicioMuestra` (lines 22-24): store the reading `now` of `gettimeofday`
in `inicio`. -/
def InicioMuestra (now : Timeval) (g : Clock) : Clock :=
  { g with inicio := now }

/-- The function `FinMuestra` (lines 29-35): store the reading `now` in `fin`, subtract `inicio` from it
field by field in place, and compute `tiempo`, the value handed to
`printf("%9.0f \n", tiempo)`. -/
def FinMuestra (now : Timeval) (g : Clock) : Clock × Int :=
  let fin : Timeval := now
  let fin : Timeval := { fin with tv_usec := wrapLong (fin.tv_usec - g.inicio.tv_usec) }
  let fin : Timeval := { fin with tv_sec := wrapLong (fin.tv_sec - g.inicio.tv_sec) }
  let tiempo := castDouble (wrapLong (wrapLong (fin.tv_sec * 1000000) + fin.tv_usec))
  ({ g with fin := fin }, tiempo)

/-- A reading of the system clock: a normalised `timeval` (`0 ≤ tv_usec < 10^6`) between
the epoch and `2^33` seconds after it, a range that contains every time the clock can be
set to. -/
def IsTimestamp (t : Timeval) : Prop :=
  0 ≤ t.tv_sec ∧ t.tv_sec < 2 ^ 33 ∧ 0 ≤ t.tv_usec ∧ t.tv_usec < 1000000

instance (t : Timeval) : Decidable (IsTimestamp t) := by
  unfold IsTimestamp
  infer_instance

/-- The specification's `elapsedMicros`. -/
def elapsedMicros (start stop : Timeval) : Int :=
  (stop.tv_sec - start.tv_sec) * 1000000 + (stop.tv_usec - start.tv_usec)

/-! ## Printing, initialisation and `main` -/

/-- What a run of the program does that can be observed from outside: its `printf`
calls (`usage`, `newline`, `entry`, `divider`, `timing`) and its calls that allocate,
initialise, time and multiply. -/
inductive Event (α : Type) where
  | usage
  | calloc (n : Int)
  | srand
  | setNumThreads (t : Int)
  | iniMatrix
  | newline
  | entry (x : α)
  | divider
  | inicioMuestra
  | multiMatrix
  | timing (t : Int)
  | free
  deriving DecidableEq

/-- The event is a `printf` call. -/
def Event.isPrint {α : Type} : Event α → Bool
  | Event.usage => true
  | Event.newline => true
  | Event.entry _ => true
  | Event.divider => true
  | Event.timing _ => true
  | _ => false

/-- The matrix entries among a sequence of events, in order. -/
def entriesOf {α : Type} : List (Event α) → List α
  | [] => []
  | Event.entry x :: es => x :: entriesOf es
  | _ :: es => entriesOf es

/-- Lines 43-46, the loop of `impMatrix`, unfolded over the iterations that remain; `i` is
the counter.  `i%D` with `D = 0` and a read outside `matrix` are errors. -/
def impLoop {α : Type} (matrix : List α) (D : Int) : Nat → Nat → Option (List (Event α))
  | 0, _ => some []
  | n + 1, i =>
    if D = 0 then none
    else
      match matrix[i]? with
      | none => none
      | some x =>
        match impLoop matrix D n (i + 1) with
        | none => none
        | some out =>
          some ((if Int.tmod (i : Int) D = 0 then [Event.newline] else []) ++ Event.entry x :: out)

/-- The function `impMatrix` (lines 40-49): the `printf` calls it makes, in order. -/
def impMatrix {α : Type} (matrix : List α) (D : Int) : Option (List (Event α)) :=
  if D < 9 then
    match impLoop matrix D (D * D).toNat 0 with
    | none => none
    | some out => some (Event.newline :: (out ++ [Event.divider]))
  else some [Event.newline]

/-- Lines 54-57, the loop of `iniMatrix`, unfolded over the iterations that remain.  `i` is
the common offset of the cursors `m1` and `m2`; `rand` is the sequence of values the calls
of `rand()` return and `c` the number of calls made so far. -/
def iniLoop {α : Type} [NatCast α] (rand : Nat → Nat) :
    Nat → Nat → Nat → List α → List α → Option (List α × List α × Nat)
  | 0, _, c, m1, m2 => some (m1, m2, c)
  | n + 1, i, c, m1, m2 =>
    if i < m1.length ∧ i < m2.length then
      iniLoop rand n (i + 1) (c + 2)
        (m1.set i ((rand c % 100 : Nat) : α)) (m2.set i ((rand (c + 1) % 100 : Nat) : α))
    else none

/-- The function `iniMatrix` (lines 53-58): both buffers after the loop and the number of `rand()`
calls made. -/
def iniMatrix {α : Type} [NatCast α] (rand : Nat → Nat) (m1 m2 : List α) (D : Int) :
    Option (List α × List α × Nat) :=
  iniLoop rand (D * D).toNat 0 0 m1 m2

/-- The leading decimal digits of a string, read as a number. -/
def digitsVal : List Char → Nat → Nat
  | [], acc => acc
  | ch :: cs, acc =>
    if 48 ≤ ch.toNat ∧ ch.toNat ≤ 57 then digitsVal cs (acc * 10 + (ch.toNat - 48)) else acc

/-- C's `isspace`: the space and the characters `\t \n \v \f \r`. -/
def isSpace (ch : Char) : Bool :=
  ch.toNat = 32 || (9 ≤ ch.toNat && ch.toNat ≤ 13)

/-- The number the characters of a string denote for C's `strtol` in base 10, before any
bound: leading white space, an optional sign, then digits up to the first character that
is not one; `0` when there is no digit. -/
def atoiChars : List Char → Int
  | [] => 0
  | ch :: cs =>
    if isSpace ch then atoiChars cs
    else if ch.toNat = 45 then - (digitsVal cs 0 : Int)
    else if ch.toNat = 43 then (digitsVal cs 0 : Int)
    else (digitsVal (ch :: cs) 0 : Int)

/-- The result of `strtol` for the number `x`: `x` itself inside the range of `long`, else
`LONG_MIN` or `LONG_MAX`. -/
def clampLong (x : Int) : Int :=
  if x < -2 ^ 63 then -2 ^ 63 else if 2 ^ 63 - 1 < x then 2 ^ 63 - 1 else x

/-- The value a 32-bit two's-complement `int` holds for the integer `x`. -/
def wrapInt (x : Int) : Int :=
  (x + 2 ^ 31) % 2 ^ 32 - 2 ^ 31

/-- C's `atoi`, which is `(int) strtol(s, NULL, 10)`: the number the string denotes, brought
into the range of `long` and then cut down to the 32 bits of an `int`. -/
def atoi (s : String) : Int :=
  wrapInt (clampLong (atoiChars s.toList))

/-- The call `calloc(n, sizeof(double))`: a buffer of `n` zeros (allocation is taken to
succeed). -/
def calloc {α : Type} [Zero α] (n : Int) : List α :=
  List.replicate n.toNat 0

/-- The outcome of a run: the exit status and the events, in order. -/
structure Run (α : Type) where
  exitCode : Int
  trace : List (Event α)
  deriving DecidableEq

/-- What the run wrote to standard output. -/
def Run.output {α : Type} (r : Run α) : List (Event α) :=
  r.trace.filter Event.isPrint

/-- The function `main` (lines 87-123).  `argv` holds the program name and the arguments
(`argc` is its length), `rand` the values `rand()` returns, `t0` and `t1` the clock
readings of `InicioMuestra` and `FinMuestra`.  For `D ≤ 0` the loops of the kernel make no
iteration, as for `D = 0`.

Three things the program does are left out, and every statement about runs of `main` with
at least two arguments is to be read within them: the kernel is run by one thread whatever
`TH` is (the team of `TH` workers is `multiMatrixPar`); the `int` product `N*N` is taken
without overflow; and `calloc` is taken to succeed. -/
def main {α : Type} [Zero α] [Add α] [Mul α] [NatCast α] (argv : List String)
    (rand : Nat → Nat) (t0 t1 : Timeval) : Option (Run α) :=
  if argv.length < 3 then
    some { exitCode := 0, trace := [Event.usage] }
  else
    let N := atoi (argv.getD 1 "")
    let TH := atoi (argv.getD 2 "")
    let matrixA : List α := calloc (N * N)
    let matrixB : List α := calloc (N * N)
    let matrixC : List α := calloc (N * N)
    match iniMatrix rand matrixA matrixB N with
    | none => none
    | some (matrixA, matrixB, _) =>
      match impMatrix matrixA N, impMatrix matrixB N with
      | some outA, some outB =>
        let g := InicioMuestra t0 { inicio := ⟨0, 0⟩, fin := ⟨0, 0⟩ }
        match multiMatrix matrixA matrixB matrixC N.toNat with
        | none => none
        | some (matrixC, _) =>
          let tiempo := (FinMuestra t1 g).2
          match impMatrix matrixC N with
          | none => none
          | some outC =>
            some { exitCode := 0,
                   trace := [Event.calloc (N * N), Event.calloc (N * N), Event.calloc (N * N),
                             Event.srand, Event.setNumThreads TH, Event.iniMatrix]
                     ++ outA ++ outB ++ [Event.inicioMuestra, Event.multiMatrix,
                             Event.timing tiempo]
                     ++ outC ++ [Event.free, Event.free, Event.free] }
      | _, _ => none

/-! ## Lemmas on the sequential kernel -/

theorem getElem?_eq_some_getD {α : Type} [Zero α] (l : List α) (n : Nat) (h : n < l.length) :
    l[n]? = some (l.getD n 0) := by
  rw [List.getD_eq_getElem?_getD, List.getElem?_eq_getElem h]
  rfl

/-- The `k` loop, started with `n` iterations to go and both cursors far enough from the
end of their buffers, runs to the end: it accumulates the `n` products in order, leaves
the cursors `n` elements and `n` rows further, and loads exactly the elements it passes. -/
theorem loopK_eq {α : Type} [Zero α] [Add α] [Mul α] (mA mB : List α) (D : Nat) :
    ∀ (n : Nat) (m : Mem α),
      (∀ k, k < n → m.pA + k < mA.length) →
      (∀ k, k < n → m.pB + k * D < mB.length) →
      loopK mA mB D n m =
        some ({ m with
                Suma := (List.range n).foldl
                  (fun s k => s + mA.getD (m.pA + k) 0 * mB.getD (m.pB + k * D) 0) m.Suma,
                pA := m.pA + n,
                pB := m.pB + n * D },
              (List.range n).flatMap
                (fun k => [Access.readA (m.pA + k), Access.readB (m.pB + k * D)])) := by
  intro n
  induction n with
  | zero => intro m _ _; simp [loopK]
  | succ n ih =>
    intro m hA hB
    have hA0 : m.pA < mA.length := by simpa using hA 0 (Nat.succ_pos n)
    have hB0 : m.pB < mB.length := by simpa using hB 0 (Nat.succ_pos n)
    have hA' : ∀ k, k < n → m.pA + 1 + k < mA.length := by
      intro k hk
      have := hA (k + 1) (Nat.succ_lt_succ hk)
      omega
    have hB' : ∀ k, k < n → m.pB + D + k * D < mB.length := by
      intro k hk
      have := hB (k + 1) (Nat.succ_lt_succ hk)
      rw [Nat.succ_mul] at this
      omega
    rw [loopK, getElem?_eq_some_getD mA _ hA0, getElem?_eq_some_getD mB _ hB0]
    simp only
    rw [ih _ hA' hB']
    simp only [List.range_succ_eq_map, List.foldl_cons, List.foldl_map, List.flatMap_cons,
      List.flatMap_map, Nat.add_zero, Nat.zero_mul, Nat.succ_eq_add_one]
    have e1 : ∀ k, m.pA + 1 + k = m.pA + (k + 1) := by intro k; omega
    have e2 : ∀ k, m.pB + D + k * D = m.pB + (k + 1) * D := by
      intro k; rw [Nat.succ_mul]; omega
    simp only [e1, e2, Function.comp_def]
    rfl

theorem idx_lt {D i j : Nat} (hi : i < D) (hj : j < D) : i * D + j < D * D := by
  have h : (i + 1) * D ≤ D * D := Nat.mul_le_mul_right D hi
  rw [Nat.succ_mul] at h
  omega

theorem idx_lt_col {D j k : Nat} (hj : j < D) (hk : k < D) : j + k * D < D * D := by
  have := idx_lt hk hj
  omega

theorem idx_div {D i j : Nat} (hj : j < D) : (i * D + j) / D = i := by
  have hD : 0 < D := by omega
  rw [Nat.add_comm, Nat.add_mul_div_right j i hD, Nat.div_eq_of_lt hj, Nat.zero_add]

theorem idx_mod {D i j : Nat} (hj : j < D) : (i * D + j) % D = j := by
  rw [Nat.add_comm, Nat.add_mul_mod_self_right, Nat.mod_eq_of_lt hj]

/-- The body of the `j` loop on buffers of `D*D` elements, for a cell inside the matrix:
it runs to the end, stores the specification's cell value at `i*D+j` and makes exactly the
accesses of `cellTrace`; the cursors end at `i*D+D` and `j+D*D`. -/
theorem cellBody_eq {α : Type} [Zero α] [Add α] [Mul α] (mA mB : List α) (D i j : Nat)
    (m : Mem α) (hA : mA.length = D * D) (hB : mB.length = D * D)
    (hC : m.mC.length = D * D) (hi : i < D) (hj : j < D) :
    cellBody mA mB D i j m =
      some ({ Suma := dotCell mA mB D i j, pA := i * D + D, pB := j + D * D,
              mC := m.mC.set (i * D + j) (dotCell mA mB D i j) },
            cellTrace D i j) := by
  have h1 : ∀ k, k < D → i * D + k < mA.length := fun k hk => hA ▸ idx_lt hi hk
  have h2 : ∀ k, k < D → j + k * D < mB.length := fun k hk => hB ▸ idx_lt_col hj hk
  have hlt : i * D + j < m.mC.length := hC ▸ idx_lt hi hj
  unfold cellBody
  rw [loopK_eq mA mB D D _ h1 h2]
  simp only [hlt, if_true, dotCell, cellTrace]
  simp only [Nat.add_comm j]

/-- The `j` loop of row `i` over columns inside the matrix: it runs to the end, makes the
accesses of `cellTrace` for each column in turn and stores each cell's value. -/
theorem loopJ_eq {α : Type} [Zero α] [Add α] [Mul α] (mA mB : List α) (D i : Nat)
    (hA : mA.length = D * D) (hB : mB.length = D * D) (hi : i < D) :
    ∀ (js : List Nat) (m : Mem α), (∀ j ∈ js, j < D) → m.mC.length = D * D →
      ∃ m', loopJ mA mB D i js m = some (m', js.flatMap (cellTrace D i)) ∧
        m'.mC = applyWrites (js.map (fun j => (i * D + j, dotCell mA mB D i j))) m.mC := by
  intro js
  induction js with
  | nil => intro m _ _; exact ⟨m, rfl, rfl⟩
  | cons j js ih =>
    intro m hjs hC
    have hj : j < D := hjs j (List.mem_cons_self _ _)
    have hjs' : ∀ x ∈ js, x < D := fun x hx => hjs x (List.mem_cons_of_mem _ hx)
    obtain ⟨m', h1, h2⟩ := ih _ hjs'
      (show (Mem.mk (dotCell mA mB D i j) (i * D + D) (j + D * D)
          (m.mC.set (i * D + j) (dotCell mA mB D i j))).mC.length = D * D by
        simp [hC])
    refine ⟨m', ?_, ?_⟩
    · rw [loopJ, cellBody_eq mA mB D i j m hA hB hC hi hj]
      simp only [h1, List.flatMap_cons]
    · rw [h2]; rfl

theorem applyWrites_append {α : Type} (us vs : List (Nat × α)) (c : List α) :
    applyWrites (us ++ vs) c = applyWrites vs (applyWrites us c) := by
  simp [applyWrites, List.foldl_append]

theorem applyWrites_length {α : Type} (us : List (Nat × α)) :
    ∀ c : List α, (applyWrites us c).length = c.length := by
  induction us with
  | nil => intro c; rfl
  | cons u us ih => intro c; simp only [applyWrites, List.foldl_cons] at ih ⊢; rw [ih]; simp

/-- The outer loop over rows inside the matrix, on buffers of `D*D` elements: it runs to
the end, makes the accesses of `rowTrace` for each row in turn and leaves in `mC` the
stores of all visited cells. -/
theorem loopI_eq {α : Type} [Zero α] [Add α] [Mul α] (mA mB : List α) (D : Nat)
    (hA : mA.length = D * D) (hB : mB.length = D * D) :
    ∀ (rows : List Nat) (m : Mem α), (∀ i ∈ rows, i < D) → m.mC.length = D * D →
      ∃ m', loopI mA mB D rows m = some (m', rows.flatMap (rowTrace D)) ∧
        m'.mC = applyWrites (rows.flatMap (fun i =>
          (List.range D).map (fun j => (i * D + j, dotCell mA mB D i j)))) m.mC := by
  intro rows
  induction rows with
  | nil => intro m _ _; exact ⟨m, rfl, rfl⟩
  | cons i is ih =>
    intro m hrows hC
    have hi : i < D := hrows i (List.mem_cons_self _ _)
    have hrows' : ∀ x ∈ is, x < D := fun x hx => hrows x (List.mem_cons_of_mem _ hx)
    obtain ⟨m1, h1, h2⟩ := loopJ_eq mA mB D i hA hB hi (List.range D) m
      (fun j hj => List.mem_range.mp hj) hC
    have hC1 : m1.mC.length = D * D := by rw [h2, applyWrites_length, hC]
    obtain ⟨m2, h3, h4⟩ := ih m1 hrows' hC1
    refine ⟨m2, ?_, ?_⟩
    · rw [loopI, rowBody, h1]
      simp only [h3, List.flatMap_cons, rowTrace]
    · rw [h4, h2, List.flatMap_cons, applyWrites_append]

/-- When every store of the list writes the value `g offset`, the buffer afterwards holds
`g n` at every stored offset `n` inside it and its old content elsewhere. -/
theorem applyWrites_getElem? {α : Type} (g : Nat → α) :
    ∀ (us : List (Nat × α)) (buf : List α) (n : Nat), (∀ u ∈ us, u.2 = g u.1) →
      (applyWrites us buf)[n]? =
        if n ∈ us.map Prod.fst ∧ n < buf.length then some (g n) else buf[n]? := by
  intro us
  induction us with
  | nil => intro buf n _; simp [applyWrites]
  | cons u us ih =>
    intro buf n hg
    have hu : u.2 = g u.1 := hg u (List.mem_cons_self _ _)
    have hg' : ∀ v ∈ us, v.2 = g v.1 := fun v hv => hg v (List.mem_cons_of_mem _ hv)
    have step : applyWrites (u :: us) buf = applyWrites us (buf.set u.1 u.2) := rfl
    rw [step, ih (buf.set u.1 u.2) n hg', List.length_set, List.getElem?_set]
    by_cases h1 : n ∈ us.map Prod.fst
    · by_cases h2 : n < buf.length
      · simp [h1, h2]
      · have h3 : buf[n]? = none := List.getElem?_eq_none (Nat.le_of_not_lt h2)
        by_cases h4 : u.1 = n
        · subst h4; simp [h2]; omega
        · simp [h1, h2, h4, h3]
    · by_cases h4 : u.1 = n
      · subst h4
        by_cases h2 : u.1 < buf.length
        · simp [h1, h2, hu]
        · simp [h1, h2]; omega
      · have h5 : ¬ n = u.1 := fun h => h4 h.symm
        simp [h1, h4, h5]

/-- The stores of the whole kernel, `(i*D+j, dotCell i j)`, all write the value the
specification gives for their offset. -/
theorem kernelWrites_value {α : Type} [Zero α] [Add α] [Mul α] (mA mB : List α) (D : Nat)
    (rows : List Nat) :
    ∀ u ∈ rows.flatMap (fun i =>
        (List.range D).map (fun j => (i * D + j, dotCell mA mB D i j))),
      u.2 = dotCell mA mB D (u.1 / D) (u.1 % D) := by
  intro u hu
  simp only [List.mem_flatMap, List.mem_map, List.mem_range] at hu
  obtain ⟨i, _, j, hj, rfl⟩ := hu
  simp only [idx_div hj, idx_mod hj]

theorem kernelWrites_mem {α : Type} [Zero α] [Add α] [Mul α] (mA mB : List α) (D : Nat)
    (rows : List Nat) (i j : Nat) (hi : i ∈ rows) (hj : j < D) :
    i * D + j ∈ (rows.flatMap (fun i =>
        (List.range D).map (fun j => (i * D + j, dotCell mA mB D i j)))).map Prod.fst := by
  simp only [List.mem_map, List.mem_flatMap, List.mem_range]
  exact ⟨(i * D + j, dotCell mA mB D i j), ⟨i, hi, j, hj, rfl⟩, rfl⟩

/-- The sequential kernel on well-sized buffers, rows taken in any order that visits each
of `0, ..., N-1`: it returns, with the buffer holding the specification's reference
product and the accesses of the visited rows. -/
theorem multiMatrixIn_eq {α : Type} [Zero α] [Add α] [Mul α] (N : Nat) (A B C : List α)
    (rows : List Nat) (hrows : rows.Perm (List.range N))
    (hA : A.length = N * N) (hB : B.length = N * N) (hC : C.length = N * N) :
    multiMatrixIn rows A B C N = some (referenceProduct A B N, rows.flatMap (rowTrace N)) := by
  have hlt : ∀ i ∈ rows, i < N := fun i hi => List.mem_range.mp (hrows.mem_iff.mp hi)
  obtain ⟨m', h1, h2⟩ := loopI_eq A B N hA hB rows (initMem C) hlt hC
  unfold multiMatrixIn
  rw [h1]
  simp only [Option.some.injEq, Prod.mk.injEq, and_true]
  rw [h2]
  apply List.ext_getElem?
  intro n
  rw [applyWrites_getElem? (fun idx => dotCell A B N (idx / N) (idx % N)) _ _ n
    (kernelWrites_value A B N rows)]
  show _ = (referenceProduct A B N)[n]?
  unfold referenceProduct
  rw [List.getElem?_map]
  by_cases hn : n < N * N
  · have hN : 0 < N := by
      rcases Nat.eq_zero_or_pos N with h | h
      · subst h; simp at hn
      · exact h
    have hdiv : n / N < N := Nat.div_lt_of_lt_mul hn
    have hmod : n % N < N := Nat.mod_lt n hN
    have hmem := kernelWrites_mem A B N rows (n / N) (n % N)
      (hrows.mem_iff.mpr (List.mem_range.mpr hdiv)) hmod
    rw [Nat.div_add_mod' n N] at hmem
    have hlen : n < (initMem C).mC.length := by simpa [initMem, hC] using hn
    rw [if_pos ⟨hmem, hlen⟩, List.getElem?_range hn]
    rfl
  · have hlen : ¬ n < (initMem C).mC.length := by simpa [initMem, hC] using hn
    have hr : (List.range (N * N))[n]? = none :=
      List.getElem?_eq_none (by simpa using hn)
    have hc : (initMem C).mC[n]? = none :=
      List.getElem?_eq_none (by simpa [initMem, hC] using hn)
    rw [if_neg (fun h => hlen h.2), hr, hc]
    rfl

/-- The reference product has `N*N` cells and its cell `i*N+j` is `dotCell i j`. -/
theorem referenceProduct_getElem? {α : Type} [Zero α] [Add α] [Mul α] (A B : List α)
    (N i j : Nat) (hi : i < N) (hj : j < N) :
    (referenceProduct A B N)[i * N + j]? = some (dotCell A B N i j) := by
  unfold referenceProduct
  rw [List.getElem?_map, List.getElem?_range (idx_lt hi hj)]
  simp only [Option.map_some', idx_div hj, idx_mod hj]

/-! ## Correctness of the sequential kernel -/

/-- C1: on row-major buffers `A`, `B`, `C` of `N*N` elements, `multiMatrix` with its outer
iterations taken in any sequential order (each row `0..N-1` once) returns, whatever `C`
held, and every cell `C[i*N+j]` then holds the accumulation that starts at `0.0` and adds
`A[i*N+k] * B[k*N+j]` for `k = 0, ..., N-1` in that order; the whole buffer is the
reference product of a sequential triple loop. -/
theorem multiMatrix_computes_product {α : Type} [Zero α] [Add α] [Mul α] (N : Nat)
    (A B C : List α) (rows : List Nat) (hrows : rows.Perm (List.range N))
    (hA : A.length = N * N) (hB : B.length = N * N) (hC : C.length = N * N) :
    ∃ C' tr, multiMatrixIn rows A B C N = some (C', tr) ∧
      C'.length = N * N ∧
      (∀ i j, i < N → j < N → C'[i * N + j]? = some (dotCell A B N i j)) ∧
      C' = referenceProduct A B N := by
  refine ⟨referenceProduct A B N, rows.flatMap (rowTrace N),
    multiMatrixIn_eq N A B C rows hrows hA hB hC, ?_, ?_, rfl⟩
  · simp [referenceProduct]
  · intro i j hi hj
    exact referenceProduct_getElem? A B N i j hi hj

/-- C1 at the specification's scenario, rows taken in the order 1, 0: `N = 2`,
`A = [[1,2],[3,4]]`, `B = [[5,6],[7,8]]` gives `C = [[19,22],[43,50]]`. -/
theorem multiMatrix_computes_product_witness :
    (∃ C' tr, multiMatrixIn [1, 0] [(1 : Int), 2, 3, 4] [5, 6, 7, 8] [0, 0, 0, 0] 2
        = some (C', tr) ∧
      C'.length = 2 * 2 ∧
      (∀ i j, i < 2 → j < 2 →
        C'[i * 2 + j]? = some (dotCell [(1 : Int), 2, 3, 4] [5, 6, 7, 8] 2 i j)) ∧
      C' = referenceProduct [(1 : Int), 2, 3, 4] [5, 6, 7, 8] 2) ∧
    referenceProduct [(1 : Int), 2, 3, 4] [5, 6, 7, 8] 2 = [19, 22, 43, 50] :=
  ⟨multiMatrix_computes_product 2 [1, 2, 3, 4] [5, 6, 7, 8] [0, 0, 0, 0] [1, 0]
    (by decide) rfl rfl rfl, by decide⟩

/-! ## The stores of the kernel -/

theorem idx_inj {N i j i' j' : Nat} (hj : j < N) (hj' : j' < N)
    (h : i * N + j = i' * N + j') : i = i' ∧ j = j' := by
  have h1 := idx_div (i := i) hj
  have h2 := idx_mod (i := i) hj
  rw [h] at h1 h2
  rw [idx_div hj'] at h1
  rw [idx_mod hj'] at h2
  exact ⟨h1.symm, h2.symm⟩

theorem cellTrace_bounds (N i j : Nat) (hi : i < N) (hj : j < N) :
    ∀ a ∈ cellTrace N i j, a.offset < N * N ∧
      (a = Access.writeC (i * N + j) ∨
        ∃ k, k < N ∧ (a = Access.readA (i * N + k) ∨ a = Access.readB (j + k * N))) := by
  intro a ha
  simp only [cellTrace, List.mem_append, List.mem_flatMap, List.mem_range, List.mem_cons,
    List.mem_singleton, List.not_mem_nil, or_false] at ha
  rcases ha with ⟨k, hk, h | h⟩ | h
  · subst h; exact ⟨idx_lt hi hk, Or.inr ⟨k, hk, Or.inl rfl⟩⟩
  · subst h; exact ⟨idx_lt_col hj hk, Or.inr ⟨k, hk, Or.inr rfl⟩⟩
  · subst h; exact ⟨idx_lt hi hj, Or.inl rfl⟩

theorem kernelTrace_bounds (N : Nat) (rows : List Nat) (hrows : ∀ i ∈ rows, i < N) :
    ∀ a ∈ rows.flatMap (rowTrace N), a.offset < N * N ∧
      ∃ i j, i < N ∧ j < N ∧ (a = Access.writeC (i * N + j) ∨
        ∃ k, k < N ∧ (a = Access.readA (i * N + k) ∨ a = Access.readB (j + k * N))) := by
  intro a ha
  simp only [rowTrace, List.mem_flatMap, List.mem_range] at ha
  obtain ⟨i, hi, j, hj, h⟩ := ha
  obtain ⟨h1, h2⟩ := cellTrace_bounds N i j (hrows i hi) hj a h
  exact ⟨h1, i, j, hrows i hi, hj, h2⟩

/-- Bounds of the pointer walk when the rows are executed one after the other, in any
order: on buffers of exactly `N*N` elements, `N*N` representable in `int`, the kernel
never takes the out-of-bounds branch: it returns, and its dereferences are exactly, for
each cell `(i, j)`, the loads at `pA = i*N+k` and `pB = j+k*N` for `k = 0..N-1` followed
by the store at `i*N+j`.  Every offset dereferenced is below `N*N` and fits in `int`;
after its last increment `pB` holds `j+N*N`, which is never dereferenced. -/
theorem multiMatrix_in_bounds {α : Type} [Zero α] [Add α] [Mul α] (N : Nat)
    (A B C : List α) (rows : List Nat) (hrows : rows.Perm (List.range N))
    (hA : A.length = N * N) (hB : B.length = N * N) (hC : C.length = N * N)
    (hint : N * N ≤ 2147483647) :
    (∃ C', multiMatrixIn rows A B C N = some (C', rows.flatMap (rowTrace N))) ∧
    (∀ a ∈ rows.flatMap (rowTrace N), a.offset < N * N ∧ a.offset ≤ 2147483647 ∧
      ∃ i j, i < N ∧ j < N ∧ (a = Access.writeC (i * N + j) ∨
        ∃ k, k < N ∧ (a = Access.readA (i * N + k) ∨ a = Access.readB (j + k * N)))) ∧
    (∀ i j, i < N → j < N → ∀ m : Mem α, m.mC.length = N * N →
      ∃ m', cellBody A B N i j m = some (m', cellTrace N i j) ∧
        m'.pA = i * N + N ∧ m'.pB = j + N * N ∧
        Access.readB (j + N * N) ∉ rows.flatMap (rowTrace N)) := by
  have hlt : ∀ i ∈ rows, i < N := fun i hi => List.mem_range.mp (hrows.mem_iff.mp hi)
  refine ⟨⟨_, multiMatrixIn_eq N A B C rows hrows hA hB hC⟩, ?_, ?_⟩
  · intro a ha
    obtain ⟨h1, h2⟩ := kernelTrace_bounds N rows hlt a ha
    exact ⟨h1, by omega, h2⟩
  · intro i j hi hj m hm
    refine ⟨_, cellBody_eq A B N i j m hA hB hm hi hj, rfl, rfl, ?_⟩
    intro hmem
    have := (kernelTrace_bounds N rows hlt _ hmem).1
    simp only [Access.offset] at this
    omega

/-! ## Multiplication by the identity -/

theorem identityMatrix_getD {α : Type} [Zero α] [One α] (N k j : Nat) (hk : k < N)
    (hj : j < N) :
    (identityMatrix N : List α).getD (k * N + j) 0 = if k = j then 1 else 0 := by
  unfold identityMatrix
  rw [List.getD_eq_getElem?_getD, List.getElem?_map, List.getElem?_range (idx_lt hk hj)]
  simp only [Option.map_some', Option.getD_some, idx_div hj, idx_mod hj]

theorem getD_mem {α : Type} [Zero α] (l : List α) (n : Nat) (h : n < l.length) :
    l.getD n 0 ∈ l := by
  rw [List.getD_eq_getElem?_getD, List.getElem?_eq_getElem h]
  exact List.getElem_mem h

/-- Against the identity the accumulation of cell `(i, j)` is `0` until `k` passes `j` and
`A[i*N+j]` from then on, provided that on the entries `x` of `A` the arithmetic satisfies
`x*0 = 0`, `x*1 = x`, `0+x = x`, `x+0 = x`, and `0+0 = 0`. -/
theorem dotCell_identity_partial_sum {α : Type} [Zero α] [One α] [Add α] [Mul α] (N : Nat)
    (A : List α) (i j : Nat) (hA : A.length = N * N) (hi : i < N) (hj : j < N)
    (h00 : (0 : α) + 0 = 0)
    (hlaw : ∀ x ∈ A, x * 0 = 0 ∧ x * 1 = x ∧ 0 + x = x ∧ x + 0 = x) :
    ∀ n, n ≤ N →
      (List.range n).foldl
        (fun s k => s + A.getD (i * N + k) 0 * (identityMatrix N : List α).getD (k * N + j) 0) 0
        = if j < n then A.getD (i * N + j) 0 else 0 := by
  intro n
  induction n with
  | zero => intro _; simp
  | succ n ih =>
    intro hn
    have hn' : n < N := hn
    rw [List.range_succ, List.foldl_append, ih (Nat.le_of_lt hn'), List.foldl_cons,
      List.foldl_nil, identityMatrix_getD N n j hn' hj]
    have hx := hlaw _ (getD_mem A (i * N + n) (hA ▸ idx_lt hi hn'))
    have hy := hlaw _ (getD_mem A (i * N + j) (hA ▸ idx_lt hi hj))
    by_cases h1 : j < n
    · have h2 : ¬ n = j := by omega
      have h3 : j < n + 1 := by omega
      rw [if_pos h1, if_neg h2, if_pos h3, hx.1, hy.2.2.2]
    · by_cases h2 : n = j
      · subst h2
        rw [if_neg h1, if_pos rfl, if_pos (Nat.lt_succ_self n), hx.2.1, hx.2.2.1]
      · have h3 : ¬ j < n + 1 := by omega
        rw [if_neg h1, if_neg h2, if_neg h3, hx.1, h00]

theorem referenceProduct_identity {α : Type} [Zero α] [One α] [Add α] [Mul α] (N : Nat)
    (A : List α) (hA : A.length = N * N) (h00 : (0 : α) + 0 = 0)
    (hlaw : ∀ x ∈ A, x * 0 = 0 ∧ x * 1 = x ∧ 0 + x = x ∧ x + 0 = x) :
    referenceProduct A (identityMatrix N) N = A := by
  apply List.ext_getElem?
  intro n
  unfold referenceProduct
  rw [List.getElem?_map]
  by_cases hn : n < N * N
  · have hN : 0 < N := by
      rcases Nat.eq_zero_or_pos N with h | h
      · subst h; simp at hn
      · exact h
    have hdiv : n / N < N := Nat.div_lt_of_lt_mul hn
    have hmod : n % N < N := Nat.mod_lt n hN
    rw [List.getElem?_range hn]
    simp only [Option.map_some', dotCell]
    rw [dotCell_identity_partial_sum N A (n / N) (n % N) hA hdiv hmod h00 hlaw N (Nat.le_refl N),
      if_pos hmod, Nat.div_add_mod' n N, getElem?_eq_some_getD A n (hA ▸ hn)]
  · have hr : (List.range (N * N))[n]? = none := List.getElem?_eq_none (by simpa using hn)
    have ha : A[n]? = none := List.getElem?_eq_none (by omega)
    rw [hr, ha]
    rfl

/-- Multiplication by the identity when the rows are executed one after the other, in any
order: for an `N×N` matrix `A` on whose entries `x` the arithmetic is exact in the sense
`x*0 = 0`, `x*1 = x`, `0+x = x`, `x+0 = x` (with `0+0 = 0`) — as it is for doubles holding
small non-negative integers — the kernel with `A` on the left and the `N×N` identity on
the right returns a `C` equal to `A` cell for cell. -/
theorem multiMatrix_identity {α : Type} [Zero α] [One α] [Add α] [Mul α] (N : Nat)
    (A C : List α) (rows : List Nat) (hrows : rows.Perm (List.range N))
    (hA : A.length = N * N) (hC : C.length = N * N) (h00 : (0 : α) + 0 = 0)
    (hlaw : ∀ x ∈ A, x * 0 = 0 ∧ x * 1 = x ∧ 0 + x = x ∧ x + 0 = x) :
    ∃ tr, multiMatrixIn rows A (identityMatrix N) C N = some (A, tr) := by
  have hI : (identityMatrix N : List α).length = N * N := by simp [identityMatrix]
  refine ⟨rows.flatMap (rowTrace N), ?_⟩
  rw [multiMatrixIn_eq N A (identityMatrix N) C rows hrows hA hI hC,
    referenceProduct_identity N A hA h00 hlaw]

/-! ## The timing harness -/

theorem wrapLong_eq (x : Int) (h1 : -2 ^ 63 ≤ x) (h2 : x < 2 ^ 63) : wrapLong x = x := by
  unfold wrapLong
  omega

theorem castDouble_eq (x : Int) (h1 : -2 ^ 53 ≤ x) (h2 : x ≤ 2 ^ 53) : castDouble x = x := by
  have h : x.natAbs ≤ 2 ^ 53 := by omega
  simp only [castDouble, h, if_true]

/-- C6: for every clock reading `s` stored by `InicioMuestra` and every clock reading `e`
taken by the following `FinMuestra`, the value `FinMuestra` computes and prints is exactly
`(e_sec - s_sec) * 1000000 + (e_usec - s_usec)`: the in-place subtraction leaves
`fin = (e_sec - s_sec, e_usec - s_usec)`, the microsecond field possibly negative, and
neither the `long` arithmetic nor the cast to `double` changes the value. -/
theorem FinMuestra_elapsed (s e : Timeval) (g : Clock) (hs : IsTimestamp s)
    (he : IsTimestamp e) :
    (FinMuestra e (InicioMuestra s g)).2 = elapsedMicros s e ∧
    (FinMuestra e (InicioMuestra s g)).2
      = (e.tv_sec - s.tv_sec) * 1000000 + (e.tv_usec - s.tv_usec) ∧
    (FinMuestra e (InicioMuestra s g)).1.fin
      = { tv_sec := e.tv_sec - s.tv_sec, tv_usec := e.tv_usec - s.tv_usec } ∧
    (FinMuestra e (InicioMuestra s g)).1.inicio = s := by
  obtain ⟨hs1, hs2, hs3, hs4⟩ := hs
  obtain ⟨he1, he2, he3, he4⟩ := he
  have hu : wrapLong (e.tv_usec - s.tv_usec) = e.tv_usec - s.tv_usec :=
    wrapLong_eq _ (by omega) (by omega)
  have hsec : wrapLong (e.tv_sec - s.tv_sec) = e.tv_sec - s.tv_sec :=
    wrapLong_eq _ (by omega) (by omega)
  have hm : wrapLong ((e.tv_sec - s.tv_sec) * 1000000) = (e.tv_sec - s.tv_sec) * 1000000 :=
    wrapLong_eq _ (by omega) (by omega)
  have ht : wrapLong ((e.tv_sec - s.tv_sec) * 1000000 + (e.tv_usec - s.tv_usec))
      = (e.tv_sec - s.tv_sec) * 1000000 + (e.tv_usec - s.tv_usec) :=
    wrapLong_eq _ (by omega) (by omega)
  have hc : castDouble ((e.tv_sec - s.tv_sec) * 1000000 + (e.tv_usec - s.tv_usec))
      = (e.tv_sec - s.tv_sec) * 1000000 + (e.tv_usec - s.tv_usec) :=
    castDouble_eq _ (by omega) (by omega)
  simp only [FinMuestra, InicioMuestra, elapsedMicros, hu, hsec, hm, ht, hc, and_self]

/-- C6 at a start of `5 s 999999 µs` and an end of `7 s 3 µs`: the microsecond difference
is negative and the elapsed time is `1000004 µs`. -/
theorem FinMuestra_elapsed_witness :
    (FinMuestra ⟨7, 3⟩ (InicioMuestra ⟨5, 999999⟩ ⟨⟨0, 0⟩, ⟨0, 0⟩⟩)).2
      = elapsedMicros ⟨5, 999999⟩ ⟨7, 3⟩ ∧
    (FinMuestra ⟨7, 3⟩ (InicioMuestra ⟨5, 999999⟩ ⟨⟨0, 0⟩, ⟨0, 0⟩⟩)).2
      = (7 - 5) * 1000000 + (3 - 999999) ∧
    (FinMuestra ⟨7, 3⟩ (InicioMuestra ⟨5, 999999⟩ ⟨⟨0, 0⟩, ⟨0, 0⟩⟩)).1.fin
      = { tv_sec := 7 - 5, tv_usec := 3 - 999999 } ∧
    (FinMuestra ⟨7, 3⟩ (InicioMuestra ⟨5, 999999⟩ ⟨⟨0, 0⟩, ⟨0, 0⟩⟩)).1.inicio = ⟨5, 999999⟩ :=
  FinMuestra_elapsed ⟨5, 999999⟩ ⟨7, 3⟩ ⟨⟨0, 0⟩, ⟨0, 0⟩⟩ (by decide) (by decide)

/-! ## Initialisation and printing -/

/-- The loop of `iniMatrix` stays inside both buffers when `n` elements remain from
offset `i` on: it returns, keeps the buffers' lengths and makes `2*n` calls of `rand`. -/
theorem iniLoop_some {α : Type} [NatCast α] (rand : Nat → Nat) :
    ∀ (n i c : Nat) (m1 m2 : List α), i + n ≤ m1.length → i + n ≤ m2.length →
      ∃ a b, iniLoop rand n i c m1 m2 = some (a, b, c + 2 * n) ∧
        a.length = m1.length ∧ b.length = m2.length := by
  intro n
  induction n with
  | zero => intro i c m1 m2 _ _; exact ⟨m1, m2, rfl, rfl, rfl⟩
  | succ n ih =>
    intro i c m1 m2 h1 h2
    have hi : i < m1.length ∧ i < m2.length := ⟨by omega, by omega⟩
    obtain ⟨a, b, h, ha, hb⟩ := ih (i + 1) (c + 2)
      (m1.set i ((rand c % 100 : Nat) : α)) (m2.set i ((rand (c + 1) % 100 : Nat) : α))
      (by rw [List.length_set]; omega) (by rw [List.length_set]; omega)
    refine ⟨a, b, ?_, ?_, ?_⟩
    · rw [iniLoop, if_pos hi, h]
      have : c + 2 + 2 * n = c + 2 * (n + 1) := by omega
      rw [this]
    · rw [ha, List.length_set]
    · rw [hb, List.length_set]

theorem iniMatrix_some {α : Type} [Zero α] [NatCast α] (rand : Nat → Nat) (N : Int) :
    ∃ (A B : List α) (c : Nat),
      iniMatrix rand (calloc (N * N)) (calloc (N * N)) N = some (A, B, c) ∧
      A.length = (N * N).toNat ∧ B.length = (N * N).toNat := by
  have hlen : (calloc (N * N) : List α).length = (N * N).toNat := by simp [calloc]
  obtain ⟨a, b, h, ha, hb⟩ := iniLoop_some rand (N * N).toNat 0 0
    (calloc (N * N) : List α) (calloc (N * N) : List α) (by rw [hlen]; omega)
    (by rw [hlen]; omega)
  exact ⟨a, b, _, h, by rw [ha, hlen], by rw [hb, hlen]⟩

theorem entriesOf_append {α : Type} (e1 e2 : List (Event α)) :
    entriesOf (e1 ++ e2) = entriesOf e1 ++ entriesOf e2 := by
  induction e1 with
  | nil => rfl
  | cons a t ih => cases a <;> simp [entriesOf, ih]

/-- The loop of `impMatrix` with `D ≠ 0`, `n` elements remaining from offset `i` on: it
returns, prints exactly those `n` entries in order, and besides them only newlines. -/
theorem impLoop_some {α : Type} (matrix : List α) (D : Int) (hD : D ≠ 0) :
    ∀ (n i : Nat), i + n ≤ matrix.length →
      ∃ out, impLoop matrix D n i = some out ∧
        entriesOf out = (matrix.drop i).take n ∧
        ∀ e ∈ out, e = Event.newline ∨ ∃ x, e = Event.entry x := by
  intro n
  induction n with
  | zero => intro i _; exact ⟨[], rfl, by simp [entriesOf], by simp⟩
  | succ n ih =>
    intro i h
    have hi : i < matrix.length := by omega
    obtain ⟨out, h1, h2, h3⟩ := ih (i + 1) (by omega)
    refine ⟨(if Int.tmod (i : Int) D = 0 then [Event.newline] else [])
        ++ Event.entry matrix[i] :: out, ?_, ?_, ?_⟩
    · rw [impLoop, if_neg hD, List.getElem?_eq_getElem hi]
      simp only [h1]
    · rw [entriesOf_append, List.drop_eq_getElem_cons hi, List.take_succ_cons]
      have : entriesOf (if Int.tmod (i : Int) D = 0 then [(Event.newline : Event α)] else [])
          = [] := by
        split <;> rfl
      rw [this, List.nil_append]
      show matrix[i] :: entriesOf out = _
      rw [h2]
    · intro e he
      rw [List.mem_append, List.mem_cons] at he
      rcases he with he | he | he
      · split at he
        · left; simpa using he
        · simp at he
      · exact Or.inr ⟨_, he⟩
      · exact h3 e he

/-- The function `impMatrix` on a buffer of `D*D` elements with `D < 9`: it returns, and prints a
newline, then all entries of the buffer in order (with newlines between them), then the
divider. -/
theorem impMatrix_small {α : Type} (matrix : List α) (D : Int) (hD : D < 9)
    (hlen : matrix.length = (D * D).toNat) :
    ∃ out, impMatrix matrix D = some (Event.newline :: (out ++ [Event.divider])) ∧
      entriesOf out = matrix ∧ ∀ e ∈ out, e = Event.newline ∨ ∃ x, e = Event.entry x := by
  by_cases h0 : D = 0
  · subst h0
    have hnil : matrix = [] := by
      apply List.eq_nil_of_length_eq_zero
      simpa using hlen
    subst hnil
    exact ⟨[], by simp [impMatrix, impLoop], rfl, by simp⟩
  · obtain ⟨out, h1, h2, h3⟩ := impLoop_some matrix D h0 (D * D).toNat 0 (by omega)
    refine ⟨out, ?_, ?_, h3⟩
    · rw [impMatrix, if_pos hD]
      simp only [h1]
    · rw [h2, ← hlen]
      simp

theorem impMatrix_large {α : Type} (matrix : List α) (D : Int) (hD : 9 ≤ D) :
    impMatrix matrix D = some [Event.newline] := by
  rw [impMatrix, if_neg (by omega)]

theorem toNat_mul_self (N : Int) (h : 0 ≤ N) : (N * N).toNat = N.toNat * N.toNat := by
  obtain ⟨n, rfl⟩ := Int.eq_ofNat_of_zero_le h
  rw [← Int.ofNat_mul]
  rfl

/-- The kernel called from `main` on buffers of `(N*N).toNat` elements returns, for every
`N`: for `N < 0` without any iteration. -/
theorem multiMatrix_some {α : Type} [Zero α] [Add α] [Mul α] (N : Int) (A B C : List α)
    (hA : A.length = (N * N).toNat) (hB : B.length = (N * N).toNat)
    (hC : C.length = (N * N).toNat) :
    ∃ C' tr, multiMatrix A B C N.toNat = some (C', tr) ∧ C'.length = (N * N).toNat := by
  by_cases h : 0 ≤ N
  · have e := toNat_mul_self N h
    refine ⟨_, _, multiMatrixIn_eq N.toNat A B C (List.range N.toNat) (List.Perm.refl _)
      (by omega) (by omega) (by omega), ?_⟩
    simp [referenceProduct, e]
  · have h0 : N.toNat = 0 := by omega
    rw [h0]
    exact ⟨C, [], rfl, hC⟩

theorem impMatrix_some {α : Type} (matrix : List α) (D : Int)
    (hlen : matrix.length = (D * D).toNat) :
    ∃ out, impMatrix matrix D = some out ∧
      ∀ e ∈ out, e = Event.newline ∨ e = Event.divider ∨ ∃ x, e = Event.entry x := by
  by_cases hD : D < 9
  · obtain ⟨out, h1, _, h3⟩ := impMatrix_small matrix D hD hlen
    refine ⟨_, h1, ?_⟩
    intro e he
    rw [List.mem_cons, List.mem_append, List.mem_singleton] at he
    rcases he with he | he | he
    · exact Or.inl he
    · rcases h3 e he with h | h
      · exact Or.inl h
      · exact Or.inr (Or.inr h)
    · exact Or.inr (Or.inl he)
  · refine ⟨_, impMatrix_large matrix D (by omega), ?_⟩
    intro e he
    exact Or.inl (by simpa using he)

/-- With at least two arguments `main` runs to its end: the buffers are initialised,
printed, multiplied and printed, none of the calls fails, and the exit status is `0`. -/
theorem main_eq {α : Type} [Zero α] [Add α] [Mul α] [NatCast α] (argv : List String)
    (rand : Nat → Nat) (t0 t1 : Timeval) (N : Int) (hargc : 3 ≤ argv.length)
    (hN : atoi (argv.getD 1 "") = N) :
    ∃ (A B C : List α) (c : Nat) (tr : List Access) (outA outB outC : List (Event α)),
      iniMatrix rand (calloc (N * N)) (calloc (N * N)) N = some (A, B, c) ∧
      A.length = (N * N).toNat ∧ B.length = (N * N).toNat ∧
      multiMatrix A B (calloc (N * N)) N.toNat = some (C, tr) ∧
      C.length = (N * N).toNat ∧
      impMatrix A N = some outA ∧ impMatrix B N = some outB ∧ impMatrix C N = some outC ∧
      main argv rand t0 t1 = some
        { exitCode := 0,
          trace := [Event.calloc (N * N), Event.calloc (N * N), Event.calloc (N * N),
                    Event.srand, Event.setNumThreads (atoi (argv.getD 2 "")), Event.iniMatrix]
            ++ outA ++ outB ++ [Event.inicioMuestra, Event.multiMatrix,
                    Event.timing (FinMuestra t1
                      (InicioMuestra t0 { inicio := ⟨0, 0⟩, fin := ⟨0, 0⟩ })).2]
            ++ outC ++ [Event.free, Event.free, Event.free] } := by
  obtain ⟨A, B, c, hini, hA, hB⟩ := iniMatrix_some (α := α) rand N
  obtain ⟨C, tr, hmul, hC⟩ := multiMatrix_some N A B (calloc (N * N)) hA hB
    (by simp [calloc])
  obtain ⟨outA, hoA, _⟩ := impMatrix_some A N hA
  obtain ⟨outB, hoB, _⟩ := impMatrix_some B N hB
  obtain ⟨outC, hoC, _⟩ := impMatrix_some C N hC
  refine ⟨A, B, C, c, tr, outA, outB, outC, hini, hA, hB, hmul, hC, hoA, hoB, hoC, ?_⟩
  have hlt : ¬ argv.length < 3 := by omega
  simp only [main, hlt, if_false, hN, hini, hoA, hoB, hmul, hoC]

/-! ## The usage path -/

/-- C8: with fewer than two arguments (`argc < 3`) `main` prints the usage message and
exits with status `0`, and that is all it does: no allocation, no initialisation, no
multiplication, no timing line.  `main` always terminates, and the usage message is
among its events if and only if fewer than two arguments were supplied. -/
theorem main_usage {α : Type} [Zero α] [Add α] [Mul α] [NatCast α] (argv : List String)
    (rand : Nat → Nat) (t0 t1 : Timeval) :
    (argv.length < 3 →
      (main argv rand t0 t1 : Option (Run α))
        = some { exitCode := 0, trace := [Event.usage] }) ∧
    (∃ run : Run α, main argv rand t0 t1 = some run ∧ run.exitCode = 0 ∧
      ((Event.usage : Event α) ∈ run.trace ↔ argv.length - 1 < 2)) := by
  have h1 : argv.length < 3 →
      (main argv rand t0 t1 : Option (Run α))
        = some { exitCode := 0, trace := [Event.usage] } := by
    intro h
    simp only [main, h, if_true]
  refine ⟨h1, ?_⟩
  by_cases h : argv.length < 3
  · refine ⟨_, h1 h, rfl, ?_⟩
    have : argv.length - 1 < 2 := by omega
    simp [this]
  · obtain ⟨A, B, C, c, tr, outA, outB, outC, _, hA, hB, _, hC, hoA, hoB, hoC, hmain⟩ :=
      main_eq (α := α) argv rand t0 t1 (atoi (argv.getD 1 "")) (by omega) rfl
    refine ⟨_, hmain, rfl, ?_⟩
    have hne : ¬ argv.length - 1 < 2 := by omega
    obtain ⟨oA, eA, pA⟩ := impMatrix_some A _ hA
    obtain ⟨oB, eB, pB⟩ := impMatrix_some B _ hB
    obtain ⟨oC, eC, pC⟩ := impMatrix_some C _ hC
    rw [hoA] at eA
    rw [hoB] at eB
    rw [hoC] at eC
    cases eA
    cases eB
    cases eC
    have nA : (Event.usage : Event α) ∉ outA := by
      intro hm
      rcases pA _ hm with h | h | ⟨x, h⟩ <;> cases h
    have nB : (Event.usage : Event α) ∉ outB := by
      intro hm
      rcases pB _ hm with h | h | ⟨x, h⟩ <;> cases h
    have nC : (Event.usage : Event α) ∉ outC := by
      intro hm
      rcases pC _ hm with h | h | ⟨x, h⟩ <;> cases h
    simp [hne, nA, nB, nC]

/-! ## The display threshold -/

/-- C7 fails on the code.  Every call of `impMatrix` with `D = 9` prints a newline,
whatever the matrix: the `printf("\n")` of line 41 stands before the test `D < 9` of line
42, although the comment on the function says it prints only when the size is below 9.
So the output of `./clasicaOpenMP 9 1` is not the timing line alone: two newlines precede
it and one follows it. -/
theorem main_nine_prints_newlines :
    (∀ matrix : List Nat, impMatrix matrix 9 = some [Event.newline]) ∧
    (main ["./clasicaOpenMP", "9", "1"] (fun _ => 0) ⟨0, 0⟩ ⟨0, 7⟩ : Option (Run Nat)).map
        Run.output
      = some [Event.newline, Event.newline, Event.timing 7, Event.newline] ∧
    (main ["./clasicaOpenMP", "9", "1"] (fun _ => 0) ⟨0, 0⟩ ⟨0, 7⟩ : Option (Run Nat)).map
        Run.output
      ≠ some [Event.timing 7] := by
  have himp : ∀ matrix : List Nat, impMatrix matrix 9 = some [Event.newline] :=
    fun matrix => impMatrix_large matrix 9 (by decide)
  obtain ⟨A, B, C, c, tr, outA, outB, outC, _, _, _, _, _, hoA, hoB, hoC, hmain⟩ :=
    main_eq (α := Nat) ["./clasicaOpenMP", "9", "1"] (fun _ => 0) ⟨0, 0⟩ ⟨0, 7⟩ 9
      (by decide) (by decide)
  rw [himp A] at hoA
  rw [himp B] at hoB
  rw [himp C] at hoC
  cases hoA
  cases hoB
  cases hoC
  have ht : (FinMuestra ⟨0, 7⟩ (InicioMuestra ⟨0, 0⟩ { inicio := ⟨0, 0⟩, fin := ⟨0, 0⟩ })).2
      = 7 := by decide
  rw [ht] at hmain
  have hout : (main ["./clasicaOpenMP", "9", "1"] (fun _ => 0) ⟨0, 0⟩ ⟨0, 7⟩
      : Option (Run Nat)).map Run.output
      = some [Event.newline, Event.newline, Event.timing 7, Event.newline] := by
    rw [hmain]
    rfl
  refine ⟨himp, hout, ?_⟩
  rw [hout]
  decide

/-! ## The kernel run by a team -/

theorem iterStep_add {α : Type} [Zero α] [Add α] [Mul α] (mA mB : List α) (D : Nat) :
    ∀ (a b : Nat) (s s1 s2 : Mem α × Worker),
      iterStep mA mB D a s = some s1 → iterStep mA mB D b s1 = some s2 →
      iterStep mA mB D (a + b) s = some s2 := by
  intro a
  induction a with
  | zero =>
    intro b s s1 s2 h1 h2
    simp only [iterStep] at h1
    cases h1
    simpa using h2
  | succ a ih =>
    intro b s s1 s2 h1 h2
    have e : a + 1 + b = (a + b) + 1 := by omega
    rw [e, iterStep]
    rw [iterStep] at h1
    cases hs : step mA mB D s.1 s.2 with
    | none => rw [hs] at h1; simp at h1
    | some r =>
      obtain ⟨m', w', l⟩ := r
      rw [hs] at h1
      exact ih b _ s1 s2 h1 h2

/-- The machine follows the `k` loop. -/
theorem iterStep_loopK {α : Type} [Zero α] [Add α] [Mul α] (mA mB : List α) (D : Nat) :
    ∀ (r : Nat) (m : Mem α) (w : Worker) (m' : Mem α) (tr : List Access),
      w.pc = Pc.forK → w.k + r = D → loopK mA mB D r m = some (m', tr) →
      iterStep mA mB D (4 * r + 1) (m, w) = some (m', { w with pc := Pc.store, k := D }) := by
  intro r
  induction r with
  | zero =>
    intro m w m' tr hpc hk h
    obtain ⟨i, todo, j, k, pc⟩ := w
    simp only at hpc hk
    subst hpc
    simp only [loopK, Option.some.injEq, Prod.mk.injEq] at h
    obtain ⟨rfl, _⟩ := h
    have hk' : ¬ k < D := by omega
    have hkD : k = D := by omega
    simp [iterStep, step, hk', hkD]
  | succ r ih =>
    intro m w m' tr hpc hk h
    obtain ⟨i, todo, j, k, pc⟩ := w
    simp only at hpc hk
    subst hpc
    rw [loopK] at h
    cases ha : mA[m.pA]? with
    | none => simp [ha] at h
    | some a =>
      cases hb : mB[m.pB]? with
      | none => simp [ha, hb] at h
      | some b =>
        simp only [ha, hb] at h
        cases hl : loopK mA mB D r
            { m with Suma := m.Suma + a * b, pA := m.pA + 1, pB := m.pB + D } with
        | none => simp [hl] at h
        | some res =>
          obtain ⟨m2, tr2⟩ := res
          simp only [hl, Option.some.injEq, Prod.mk.injEq] at h
          obtain ⟨rfl, _⟩ := h
          have hk' : k < D := by omega
          have e : 4 * (r + 1) + 1 = 4 + (4 * r + 1) := by omega
          rw [e]
          refine iterStep_add mA mB D 4 (4 * r + 1) _
            ({ m with Suma := m.Suma + a * b, pA := m.pA + 1, pB := m.pB + D },
              { i := i, todo := todo, j := j, k := k + 1, pc := Pc.forK }) _ ?_ ?_
          · simp [iterStep, step, hk', ha, hb]
          · have := ih _ { i := i, todo := todo, j := j, k := k + 1, pc := Pc.forK } m2 tr2 rfl
              (by simp only; omega) hl
            simpa using this

/-- The machine follows the body of the `j` loop. -/
theorem iterStep_cellBody {α : Type} [Zero α] [Add α] [Mul α] (mA mB : List α) (D : Nat)
    (m : Mem α) (w : Worker) (m' : Mem α) (tr : List Access)
    (hpc : w.pc = Pc.setPA) (h : cellBody mA mB D w.i w.j m = some (m', tr)) :
    iterStep mA mB D (4 * D + 5) (m, w)
      = some (m', { w with pc := Pc.forJ, j := w.j + 1, k := D }) := by
  obtain ⟨i, todo, j, k, pc⟩ := w
  simp only at hpc h
  subst hpc
  unfold cellBody at h
  cases hl : loopK mA mB D D { m with pA := i * D, pB := j, Suma := 0 } with
  | none => simp [hl] at h
  | some res =>
    obtain ⟨m1, tr1⟩ := res
    simp only [hl] at h
    by_cases hlt : i * D + j < m1.mC.length
    · simp only [hlt, if_true, Option.some.injEq, Prod.mk.injEq] at h
      obtain ⟨rfl, _⟩ := h
      have e : 4 * D + 5 = 3 + ((4 * D + 1) + 1) := by omega
      rw [e]
      refine iterStep_add mA mB D 3 _ _
        ({ m with pA := i * D, pB := j, Suma := 0 },
          { i := i, todo := todo, j := j, k := 0, pc := Pc.forK }) _ ?_ ?_
      · simp [iterStep, step]
      · refine iterStep_add mA mB D (4 * D + 1) 1 _
          (m1, { i := i, todo := todo, j := j, k := D, pc := Pc.store }) _ ?_ ?_
        · have := iterStep_loopK mA mB D D _
            { i := i, todo := todo, j := j, k := 0, pc := Pc.forK } m1 tr1 rfl
            (by simp) hl
          simpa using this
        · simp [iterStep, step, hlt]
    · simp [hlt] at h

/-- The machine follows the `j` loop. -/
theorem iterStep_loopJ {α : Type} [Zero α] [Add α] [Mul α] (mA mB : List α) (D : Nat) :
    ∀ (r : Nat) (m : Mem α) (w : Worker) (m' : Mem α) (tr : List Access),
      w.pc = Pc.forJ → w.j + r = D →
      loopJ mA mB D w.i (List.range' w.j r) m = some (m', tr) →
      ∃ w', iterStep mA mB D (r * (4 * D + 6) + 1) (m, w) = some (m', w') ∧
        w'.pc = Pc.forI ∧ w'.todo = w.todo := by
  intro r
  induction r with
  | zero =>
    intro m w m' tr hpc hj h
    obtain ⟨i, todo, j, k, pc⟩ := w
    simp only at hpc hj h
    subst hpc
    simp only [List.range'_zero, loopJ, Option.some.injEq, Prod.mk.injEq] at h
    obtain ⟨rfl, _⟩ := h
    have hj' : ¬ j < D := by omega
    exact ⟨{ i := i, todo := todo, j := j, k := k, pc := Pc.forI },
      by simp [iterStep, step, hj'], rfl, rfl⟩
  | succ r ih =>
    intro m w m' tr hpc hj h
    obtain ⟨i, todo, j, k, pc⟩ := w
    simp only at hpc hj h
    subst hpc
    rw [List.range'_succ, loopJ] at h
    cases hc : cellBody mA mB D i j m with
    | none => simp [hc] at h
    | some res =>
      obtain ⟨m1, t1⟩ := res
      simp only [hc] at h
      cases hl : loopJ mA mB D i (List.range' (j + 1) r) m1 with
      | none => simp [hl] at h
      | some res2 =>
        obtain ⟨m2, t2⟩ := res2
        simp only [hl, Option.some.injEq, Prod.mk.injEq] at h
        obtain ⟨rfl, _⟩ := h
        have hj' : j < D := by omega
        obtain ⟨w', hw, hp, ht⟩ := ih m1
          { i := i, todo := todo, j := j + 1, k := D, pc := Pc.forJ } m2 t2 rfl
          (by simp only; omega) hl
        refine ⟨w', ?_, hp, ht⟩
        have e : (r + 1) * (4 * D + 6) + 1 = 1 + ((4 * D + 5) + (r * (4 * D + 6) + 1)) := by
          rw [Nat.succ_mul]; omega
        rw [e]
        refine iterStep_add mA mB D 1 _ _
          (m, { i := i, todo := todo, j := j, k := k, pc := Pc.setPA }) _ ?_ ?_
        · simp [iterStep, step, hj']
        · refine iterStep_add mA mB D (4 * D + 5) _ _
            (m1, { i := i, todo := todo, j := j + 1, k := D, pc := Pc.forJ }) _ ?_ hw
          have := iterStep_cellBody mA mB D m
            { i := i, todo := todo, j := j, k := k, pc := Pc.setPA } m1 t1 rfl hc
          simpa using this

/-- The machine follows the outer loop over the rows given to the worker. -/
theorem iterStep_loopI {α : Type} [Zero α] [Add α] [Mul α] (mA mB : List α) (D : Nat) :
    ∀ (rows : List Nat) (m : Mem α) (w : Worker) (m' : Mem α) (tr : List Access),
      w.pc = Pc.forI → w.todo = rows → loopI mA mB D rows m = some (m', tr) →
      ∃ w', iterStep mA mB D (rows.length * (D * (4 * D + 6) + 2) + 1) (m, w) = some (m', w') ∧
        w'.pc = Pc.done := by
  intro rows
  induction rows with
  | nil =>
    intro m w m' tr hpc ht h
    obtain ⟨i, todo, j, k, pc⟩ := w
    simp only at hpc ht
    subst hpc
    subst ht
    simp only [loopI, Option.some.injEq, Prod.mk.injEq] at h
    obtain ⟨rfl, _⟩ := h
    exact ⟨{ i := i, todo := [], j := j, k := k, pc := Pc.done }, by simp [iterStep, step], rfl⟩
  | cons i0 is ih =>
    intro m w m' tr hpc ht h
    obtain ⟨i, todo, j, k, pc⟩ := w
    simp only at hpc ht
    subst hpc
    subst ht
    rw [loopI, rowBody] at h
    cases hr : loopJ mA mB D i0 (List.range D) m with
    | none => simp [hr] at h
    | some res =>
      obtain ⟨m1, t1⟩ := res
      simp only [hr] at h
      cases hl : loopI mA mB D is m1 with
      | none => simp [hl] at h
      | some res2 =>
        obtain ⟨m2, t2⟩ := res2
        simp only [hl, Option.some.injEq, Prod.mk.injEq] at h
        obtain ⟨rfl, _⟩ := h
        rw [List.range_eq_range'] at hr
        obtain ⟨w1, hw1, hp1, ht1⟩ := iterStep_loopJ mA mB D D m
          { i := i0, todo := is, j := 0, k := k, pc := Pc.forJ } m1 t1 rfl (by simp) hr
        obtain ⟨w2, hw2, hp2⟩ := ih m1 w1 m2 t2 hp1 ht1 hl
        refine ⟨w2, ?_, hp2⟩
        have e : (i0 :: is).length * (D * (4 * D + 6) + 2) + 1
            = 1 + ((D * (4 * D + 6) + 1) + (is.length * (D * (4 * D + 6) + 2) + 1)) := by
          rw [List.length_cons, Nat.succ_mul]; omega
        rw [e]
        refine iterStep_add mA mB D 1 _ _
          (m, { i := i0, todo := is, j := 0, k := k, pc := Pc.forJ }) _ ?_ ?_
        · simp [iterStep, step]
        · exact iterStep_add mA mB D _ _ _ (m1, w1) _ hw1 hw2

/-- A team of one worker follows `iterStep`. -/
theorem runSchedule_alone {α : Type} [Zero α] [Add α] [Mul α] (mA mB : List α) (D : Nat) :
    ∀ (n : Nat) (m : Mem α) (w : Worker) (log : List (Nat × Loc)) (m' : Mem α) (w' : Worker),
      iterStep mA mB D n (m, w) = some (m', w') →
      ∃ log', runSchedule mA mB D (List.replicate n 0) { mem := m, workers := [w], log := log }
        = some { mem := m', workers := [w'], log := log' } := by
  intro n
  induction n with
  | zero =>
    intro m w log m' w' h
    simp only [iterStep, Option.some.injEq, Prod.mk.injEq] at h
    obtain ⟨rfl, rfl⟩ := h
    exact ⟨log, rfl⟩
  | succ n ih =>
    intro m w log m' w' h
    rw [iterStep] at h
    cases hs : step mA mB D m w with
    | none => simp [hs] at h
    | some res =>
      obtain ⟨m1, w1, l1⟩ := res
      simp only [hs] at h
      obtain ⟨log', hl⟩ := ih m1 w1 (log ++ l1.map (fun l => (0, l))) m' w' h
      refine ⟨log', ?_⟩
      rw [List.replicate_succ, runSchedule]
      simp only [stepThread, List.getElem?_cons_zero, hs, List.set_cons_zero]
      exact hl

/-- Run by a team of one worker that is given all the rows, for as many statements as the
loops take, `multiMatrix` ends with every worker at the end of the region and with the
buffer the sequential kernel computes. -/
theorem multiMatrixPar_one_worker {α : Type} [Zero α] [Add α] [Mul α] (mA mB mC : List α)
    (D : Nat) (rows : List Nat) (C' : List α) (tr : List Access)
    (h : multiMatrixIn rows mA mB mC D = some (C', tr)) :
    ∃ cfg, multiMatrixPar [rows]
        (List.replicate (rows.length * (D * (4 * D + 6) + 2) + 1) 0) mA mB mC D = some cfg ∧
      cfg.finished = true ∧ cfg.mem.mC = C' := by
  unfold multiMatrixIn at h
  cases hl : loopI mA mB D rows (initMem mC) with
  | none => simp [hl] at h
  | some res =>
    obtain ⟨m', t⟩ := res
    simp only [hl, Option.some.injEq, Prod.mk.injEq] at h
    obtain ⟨rfl, _⟩ := h
    obtain ⟨w', hw, hp⟩ := iterStep_loopI mA mB D rows (initMem mC)
      { i := 0, todo := rows, j := 0, k := 0, pc := Pc.forI } m' t rfl rfl hl
    obtain ⟨log', hrun⟩ := runSchedule_alone mA mB D _ _ _ [] _ _ hw
    refine ⟨{ mem := m', workers := [w'], log := log' }, ?_, ?_, rfl⟩
    · simpa [multiMatrixPar, startConfig] using hrun
    · simp [Config.finished, hp]

/-- Workers that were given no row only move from the head of the `i` loop to the end of
the region: whatever the schedule, the memory and the log of stores stay as they are. -/
theorem runSchedule_no_rows {α : Type} [Zero α] [Add α] [Mul α] (mA mB : List α) (D : Nat) :
    ∀ (sched : List Nat) (cfg : Config α),
      (∀ w ∈ cfg.workers, w.todo = [] ∧ (w.pc = Pc.forI ∨ w.pc = Pc.done)) →
      ∃ ws, runSchedule mA mB D sched cfg
          = some { mem := cfg.mem, workers := ws, log := cfg.log } ∧
        ∀ w ∈ ws, w.todo = [] ∧ (w.pc = Pc.forI ∨ w.pc = Pc.done) := by
  intro sched
  induction sched with
  | nil => intro cfg h; exact ⟨cfg.workers, rfl, h⟩
  | cons t ts ih =>
    intro cfg h
    rw [runSchedule]
    cases hw : cfg.workers[t]? with
    | none =>
      simp only [stepThread, hw]
      exact ih cfg h
    | some w =>
      obtain ⟨i, todo, j, k, pc⟩ := w
      have hmem := List.getElem?_mem hw
      obtain ⟨htodo, hpc⟩ := h _ hmem
      simp only at htodo hpc
      subst htodo
      have hstep : ∃ w', step mA mB D cfg.mem { i := i, todo := [], j := j, k := k, pc := pc }
            = some (cfg.mem, w', []) ∧ w'.todo = [] ∧ (w'.pc = Pc.forI ∨ w'.pc = Pc.done) := by
        rcases hpc with hpc | hpc
        · subst hpc
          exact ⟨_, rfl, rfl, Or.inr rfl⟩
        · subst hpc
          exact ⟨_, rfl, rfl, Or.inr rfl⟩
      obtain ⟨w', hs, hw'⟩ := hstep
      simp only [stepThread, hw, hs, List.map_nil, List.append_nil]
      have hinv : ∀ v ∈ cfg.workers.set t w',
          v.todo = [] ∧ (v.pc = Pc.forI ∨ v.pc = Pc.done) := by
        intro v hv
        rcases List.mem_or_eq_of_mem_set hv with hv | hv
        · exact h v hv
        · subst hv; exact hw'
      exact ih { mem := cfg.mem, workers := cfg.workers.set t w', log := cfg.log } hinv

theorem step_inv {α : Type} [Zero α] [Add α] [Mul α] (mA mB : List α) (D : Nat)
    (rows : List Nat) (m : Mem α) (w : Worker) (m' : Mem α) (w' : Worker) (locs : List Loc)
    (hinv : WorkerInv D rows w) (hs : step mA mB D m w = some (m', w', locs)) :
    WorkerInv D rows w' ∧ ∀ l ∈ locs, StoreInRows D rows l := by
  obtain ⟨i, todo, j, k, pc⟩ := w
  obtain ⟨htodo, hpc⟩ := hinv
  simp only at htodo hpc
  cases pc with
  | forI =>
    cases todo with
    | nil =>
      simp only [step, Option.some.injEq, Prod.mk.injEq] at hs
      obtain ⟨_, rfl, rfl⟩ := hs
      exact ⟨⟨htodo, Or.inr (Or.inl rfl)⟩, by simp⟩
    | cons i0 rest =>
      simp only [step, Option.some.injEq, Prod.mk.injEq] at hs
      obtain ⟨_, rfl, rfl⟩ := hs
      refine ⟨⟨fun x hx => htodo x (List.mem_cons_of_mem _ hx), ?_⟩, by simp⟩
      exact Or.inr (Or.inr ⟨htodo i0 (List.mem_cons_self _ _), Or.inl rfl⟩)
  | forJ =>
    have hi : i ∈ rows := by
      rcases hpc with h | h | h
      · cases h
      · cases h
      · exact h.1
    by_cases hj : j < D
    · simp only [step, hj, if_true, Option.some.injEq, Prod.mk.injEq] at hs
      obtain ⟨_, rfl, rfl⟩ := hs
      exact ⟨⟨htodo, Or.inr (Or.inr ⟨hi, Or.inr hj⟩)⟩, by simp⟩
    · simp only [step, hj, if_false, Option.some.injEq, Prod.mk.injEq] at hs
      obtain ⟨_, rfl, rfl⟩ := hs
      exact ⟨⟨htodo, Or.inl rfl⟩, by simp⟩
  | done =>
    simp only [step, Option.some.injEq, Prod.mk.injEq] at hs
    obtain ⟨_, rfl, rfl⟩ := hs
    exact ⟨⟨htodo, Or.inr (Or.inl rfl)⟩, by simp⟩
  | store =>
    have hij : i ∈ rows ∧ j < D := by
      rcases hpc with h | h | ⟨h1, h2⟩
      · cases h
      · cases h
      · rcases h2 with h2 | h2
        · cases h2
        · exact ⟨h1, h2⟩
    by_cases hlt : i * D + j < m.mC.length
    · simp only [step, hlt, if_true, Option.some.injEq, Prod.mk.injEq] at hs
      obtain ⟨_, rfl, rfl⟩ := hs
      refine ⟨⟨htodo, Or.inr (Or.inr ⟨hij.1, Or.inl rfl⟩)⟩, ?_⟩
      intro l hl off hoff
      simp only [List.mem_singleton] at hl
      subst hl
      cases hoff
      exact ⟨i, j, hij.1, hij.2, rfl⟩
    · simp [step, hlt] at hs
  | accum =>
    have hij : i ∈ rows ∧ j < D := by
      rcases hpc with h | h | ⟨h1, h2⟩
      · cases h
      · cases h
      · rcases h2 with h2 | h2
        · cases h2
        · exact ⟨h1, h2⟩
    simp only [step] at hs
    cases ha : mA[m.pA]? with
    | none => simp [ha] at hs
    | some a =>
      cases hb : mB[m.pB]? with
      | none => simp [ha, hb] at hs
      | some b =>
        simp only [ha, hb, Option.some.injEq, Prod.mk.injEq] at hs
        obtain ⟨_, rfl, rfl⟩ := hs
        refine ⟨⟨htodo, Or.inr (Or.inr ⟨hij.1, Or.inr hij.2⟩)⟩, ?_⟩
        intro l hl off hoff
        simp only [List.mem_singleton] at hl
        subst hl
        cases hoff
  | forK =>
    have hij : i ∈ rows ∧ j < D := by
      rcases hpc with h | h | ⟨h1, h2⟩
      · cases h
      · cases h
      · rcases h2 with h2 | h2
        · cases h2
        · exact ⟨h1, h2⟩
    by_cases hk : k < D
    · simp only [step, hk, if_true, Option.some.injEq, Prod.mk.injEq] at hs
      obtain ⟨_, rfl, rfl⟩ := hs
      exact ⟨⟨htodo, Or.inr (Or.inr ⟨hij.1, Or.inr hij.2⟩)⟩, by simp⟩
    · simp only [step, hk, if_false, Option.some.injEq, Prod.mk.injEq] at hs
      obtain ⟨_, rfl, rfl⟩ := hs
      exact ⟨⟨htodo, Or.inr (Or.inr ⟨hij.1, Or.inr hij.2⟩)⟩, by simp⟩
  | setPA | setPB | setSuma | incPA | incPB =>
    have hij : i ∈ rows ∧ j < D := by
      rcases hpc with h | h | ⟨h1, h2⟩
      · cases h
      · cases h
      · rcases h2 with h2 | h2
        · cases h2
        · exact ⟨h1, h2⟩
    simp only [step, Option.some.injEq, Prod.mk.injEq] at hs
    obtain ⟨_, rfl, rfl⟩ := hs
    refine ⟨⟨htodo, Or.inr (Or.inr ⟨hij.1, Or.inr hij.2⟩)⟩, ?_⟩
    intro l hl off hoff
    simp only [List.mem_singleton] at hl
    subst hl
    cases hoff

theorem startConfig_inv {α : Type} [Zero α] (D : Nat) (assign : List (List Nat))
    (mC : List α) : ConfigInv D assign (startConfig assign mC) := by
  refine ⟨?_, by simp [startConfig]⟩
  intro (t : Nat) w hw
  simp only [startConfig, List.getElem?_map] at hw
  cases ha : assign[t]? with
  | none => simp [ha] at hw
  | some rows =>
    simp only [ha, Option.map_some', Option.some.injEq] at hw
    subst hw
    exact ⟨rows, rfl, fun x hx => hx, Or.inl rfl⟩

theorem stepThread_inv {α : Type} [Zero α] [Add α] [Mul α] (mA mB : List α) (D : Nat)
    (assign : List (List Nat)) (t : Nat) (cfg cfg' : Config α)
    (hinv : ConfigInv D assign cfg) (hs : stepThread mA mB D t cfg = some cfg') :
    ConfigInv D assign cfg' := by
  obtain ⟨hinv1, hinv2⟩ := hinv
  unfold stepThread at hs
  cases hw : cfg.workers[t]? with
  | none =>
    simp only [hw, Option.some.injEq] at hs
    subst hs
    exact ⟨hinv1, hinv2⟩
  | some w =>
    simp only [hw] at hs
    cases hst : step mA mB D cfg.mem w with
    | none => simp [hst] at hs
    | some res =>
      obtain ⟨m', w', locs⟩ := res
      simp only [hst, Option.some.injEq] at hs
      subst hs
      obtain ⟨rows, hrows, hwinv⟩ := hinv1 t w hw
      obtain ⟨hw', hlocs⟩ := step_inv mA mB D rows cfg.mem w m' w' locs hwinv hst
      refine ⟨?_, ?_⟩
      · intro u v hv
        simp only at hv
        rw [List.getElem?_set] at hv
        by_cases htu : t = u
        · subst htu
          rw [if_pos rfl] at hv
          split at hv
          · cases hv
            exact ⟨rows, hrows, hw'⟩
          · cases hv
        · rw [if_neg htu] at hv
          exact hinv1 u v hv
      · intro e he
        simp only [List.mem_append, List.mem_map] at he
        rcases he with he | ⟨l, hl, rfl⟩
        · exact hinv2 e he
        · exact ⟨rows, hrows, hlocs l hl⟩

theorem runSchedule_inv {α : Type} [Zero α] [Add α] [Mul α] (mA mB : List α) (D : Nat)
    (assign : List (List Nat)) :
    ∀ (sched : List Nat) (cfg cfg' : Config α), ConfigInv D assign cfg →
      runSchedule mA mB D sched cfg = some cfg' → ConfigInv D assign cfg' := by
  intro sched
  induction sched with
  | nil =>
    intro cfg cfg' hinv h
    simp only [runSchedule, Option.some.injEq] at h
    subst h
    exact hinv
  | cons t ts ih =>
    intro cfg cfg' hinv h
    rw [runSchedule] at h
    cases hs : stepThread mA mB D t cfg with
    | none => simp [hs] at h
    | some cfg1 =>
      simp only [hs] at h
      exact ih cfg1 cfg' (stepThread_inv mA mB D assign t cfg cfg1 hinv hs) h

/-- Whatever the schedule, every store a worker makes into `mC` goes to a cell `i*D+j` of
a row `i` it was given, with `j < D`; so when no row is given to two workers, no cell of
`mC` is stored to by two workers. -/
theorem multiMatrixPar_stores_in_own_rows {α : Type} [Zero α] [Add α] [Mul α]
    (assign : List (List Nat)) (sched : List Nat) (mA mB mC : List α) (D : Nat)
    (cfg : Config α) (h : multiMatrixPar assign sched mA mB mC D = some cfg) :
    (∀ (t off : Nat), (t, Loc.mC off) ∈ cfg.log →
      ∃ rows i j, assign[t]? = some rows ∧ i ∈ rows ∧ j < D ∧ off = i * D + j) ∧
    ((∀ (t u : Nat) (rt ru : List Nat), assign[t]? = some rt → assign[u]? = some ru →
        t ≠ u → List.Disjoint rt ru) →
      ∀ (t u off : Nat), (t, Loc.mC off) ∈ cfg.log → (u, Loc.mC off) ∈ cfg.log → t = u) := by
  have hinv : _ ∧ _ := runSchedule_inv mA mB D assign sched _ cfg (startConfig_inv D assign mC) h
  have key : ∀ (t off : Nat), (t, Loc.mC off) ∈ cfg.log →
      ∃ rows i j, assign[t]? = some rows ∧ i ∈ rows ∧ j < D ∧ off = i * D + j := by
    intro t off hmem
    obtain ⟨rows, hrows, hst⟩ := hinv.2 _ hmem
    obtain ⟨i, j, hi, hj, hoff⟩ := hst off rfl
    exact ⟨rows, i, j, hrows, hi, hj, hoff⟩
  refine ⟨key, ?_⟩
  intro hdisj t u off ht hu
  obtain ⟨rt, i, j, hrt, hi, hj, h1⟩ := key t off ht
  obtain ⟨ru, i', j', hru, hi', hj', h2⟩ := key u off hu
  by_contra hne
  have hii : i = i' := (idx_inj hj hj' (h1.symm.trans h2)).1
  subst hii
  exact (List.disjoint_left.mp (hdisj t u rt ru hrt hru hne)) hi hi'

theorem loopI_append {α : Type} [Zero α] [Add α] [Mul α] (mA mB : List α) (D : Nat) :
    ∀ (r1 r2 : List Nat) (m m' : Mem α) (tr : List Access),
      loopI mA mB D (r1 ++ r2) m = some (m', tr) →
      ∃ m1 t1 t2, loopI mA mB D r1 m = some (m1, t1) ∧ loopI mA mB D r2 m1 = some (m', t2) := by
  intro r1
  induction r1 with
  | nil => intro r2 m m' tr h; exact ⟨m, [], tr, rfl, h⟩
  | cons i is ih =>
    intro r2 m m' tr h
    rw [List.cons_append, loopI] at h
    cases hr : rowBody mA mB D i m with
    | none => simp [hr] at h
    | some res =>
      obtain ⟨ma, ta⟩ := res
      simp only [hr] at h
      cases hl : loopI mA mB D (is ++ r2) ma with
      | none => simp [hl] at h
      | some res2 =>
        obtain ⟨mb, tb⟩ := res2
        simp only [hl, Option.some.injEq, Prod.mk.injEq] at h
        obtain ⟨rfl, _⟩ := h
        obtain ⟨m1, t1, t2, h1, h2⟩ := ih r2 ma mb tb hl
        exact ⟨m1, ta ++ t1, t2, by rw [loopI, hr]; simp only [h1], h2⟩

theorem runSchedule_append {α : Type} [Zero α] [Add α] [Mul α] (mA mB : List α) (D : Nat) :
    ∀ (s1 s2 : List Nat) (cfg cfg1 : Config α),
      runSchedule mA mB D s1 cfg = some cfg1 →
      runSchedule mA mB D (s1 ++ s2) cfg = runSchedule mA mB D s2 cfg1 := by
  intro s1
  induction s1 with
  | nil =>
    intro s2 cfg cfg1 h
    simp only [runSchedule, Option.some.injEq] at h
    subst h
    rfl
  | cons t ts ih =>
    intro s2 cfg cfg1 h
    rw [runSchedule] at h
    rw [List.cons_append, runSchedule]
    cases hs : stepThread mA mB D t cfg with
    | none => simp [hs] at h
    | some c =>
      simp only [hs] at h ⊢
      exact ih s2 c cfg1 h

/-- Worker number `pre.length` of a team runs alone for `n` statements: the team follows
`iterStep`, the other workers stay as they are. -/
theorem runSchedule_thread {α : Type} [Zero α] [Add α] [Mul α] (mA mB : List α) (D : Nat)
    (pre post : List Worker) :
    ∀ (n : Nat) (m : Mem α) (w : Worker) (log : List (Nat × Loc)) (m' : Mem α) (w' : Worker),
      iterStep mA mB D n (m, w) = some (m', w') →
      ∃ log', runSchedule mA mB D (List.replicate n pre.length)
          { mem := m, workers := pre ++ w :: post, log := log }
        = some { mem := m', workers := pre ++ w' :: post, log := log' } := by
  intro n
  induction n with
  | zero =>
    intro m w log m' w' h
    simp only [iterStep, Option.some.injEq, Prod.mk.injEq] at h
    obtain ⟨rfl, rfl⟩ := h
    exact ⟨log, rfl⟩
  | succ n ih =>
    intro m w log m' w' h
    rw [iterStep] at h
    cases hs : step mA mB D m w with
    | none => simp [hs] at h
    | some res =>
      obtain ⟨m1, w1, l1⟩ := res
      simp only [hs] at h
      obtain ⟨log', hl⟩ := ih m1 w1 (log ++ l1.map (fun l => (pre.length, l))) m' w' h
      refine ⟨log', ?_⟩
      have hget : (pre ++ w :: post)[pre.length]? = some w := by
        rw [List.getElem?_append_right (Nat.le_refl _)]
        simp
      have hset : (pre ++ w :: post).set pre.length w1 = pre ++ w1 :: post := by
        simp
      rw [List.replicate_succ, runSchedule]
      simp only [stepThread, hget, hs, hset]
      exact hl

/-- A team whose workers run one after the other follows the sequential kernel on the
rows of the first worker, then of the second, and so on. -/
theorem runSchedule_serial {α : Type} [Zero α] [Add α] [Mul α] (mA mB : List α) (D : Nat) :
    ∀ (rest : List (List Nat)) (pre : List Worker) (m : Mem α) (log : List (Nat × Loc))
      (m' : Mem α) (tr : List Access),
      (∀ w ∈ pre, w.pc = Pc.done) →
      loopI mA mB D rest.flatten m = some (m', tr) →
      ∃ cfg, runSchedule mA mB D (serialSchedule D pre.length rest)
          { mem := m,
            workers := pre ++ rest.map
              (fun rows => { i := 0, todo := rows, j := 0, k := 0, pc := Pc.forI }),
            log := log } = some cfg ∧
        cfg.mem = m' ∧ cfg.finished = true := by
  intro rest
  induction rest with
  | nil =>
    intro pre m log m' tr hpre h
    simp only [List.flatten_nil, loopI, Option.some.injEq, Prod.mk.injEq] at h
    obtain ⟨rfl, _⟩ := h
    refine ⟨_, rfl, rfl, ?_⟩
    simp only [Config.finished, List.map_nil, List.append_nil, List.all_eq_true,
      decide_eq_true_eq]
    exact hpre
  | cons rows rest ih =>
    intro pre m log m' tr hpre h
    rw [List.flatten_cons] at h
    obtain ⟨m1, t1, t2, h1, h2⟩ := loopI_append mA mB D rows rest.flatten m m' tr h
    obtain ⟨w1, hw1, hp1⟩ := iterStep_loopI mA mB D rows m
      { i := 0, todo := rows, j := 0, k := 0, pc := Pc.forI } m1 t1 rfl rfl h1
    obtain ⟨log1, hrun1⟩ := runSchedule_thread mA mB D pre
      (rest.map (fun rows => { i := 0, todo := rows, j := 0, k := 0, pc := Pc.forI }))
      _ m _ log m1 w1 hw1
    have hpre' : ∀ w ∈ pre ++ [w1], w.pc = Pc.done := by
      intro w hw
      rw [List.mem_append, List.mem_singleton] at hw
      rcases hw with hw | hw
      · exact hpre w hw
      · rw [hw]; exact hp1
    obtain ⟨cfg, hcfg, hm, hf⟩ := ih (pre ++ [w1]) m1 log1 m' t2 hpre' h2
    refine ⟨cfg, ?_, hm, hf⟩
    rw [serialSchedule, List.map_cons, runSchedule_append mA mB D _ _ _ _ hrun1]
    rw [List.length_append, List.length_singleton, List.append_assoc, List.singleton_append]
      at hcfg
    exact hcfg

/-- Whatever the size of the team and however the rows `0..N-1` are shared out among its
workers, when the workers run one after the other `multiMatrix` ends with the reference
product in `mC`. -/
theorem multiMatrixPar_serial {α : Type} [Zero α] [Add α] [Mul α] (N : Nat)
    (A B C : List α) (assign : List (List Nat)) (hassign : assign.flatten.Perm (List.range N))
    (hA : A.length = N * N) (hB : B.length = N * N) (hC : C.length = N * N) :
    ∃ cfg, multiMatrixPar assign (serialSchedule N 0 assign) A B C N = some cfg ∧
      cfg.finished = true ∧ cfg.mem.mC = referenceProduct A B N := by
  have h := multiMatrixIn_eq N A B C assign.flatten hassign hA hB hC
  unfold multiMatrixIn at h
  cases hl : loopI A B N assign.flatten (initMem C) with
  | none => simp [hl] at h
  | some res =>
    obtain ⟨m', t⟩ := res
    simp only [hl, Option.some.injEq, Prod.mk.injEq] at h
    obtain ⟨hm, _⟩ := h
    obtain ⟨cfg, hcfg, hmem, hfin⟩ := runSchedule_serial A B N assign [] (initMem C) [] m' t
      (by simp) hl
    refine ⟨cfg, ?_, hfin, ?_⟩
    · simpa [multiMatrixPar, startConfig] using hcfg
    · rw [hmem, hm]

/-! ## The zero case -/

/-- C9: with `N = 0` and three empty buffers `multiMatrix` makes no iteration and no
access and leaves the empty result — run by one thread, or by a team of any size under any
schedule, where no worker is given a row and nothing is stored.  The whole run reaches no
error: `iniMatrix` returns without a call of `rand`, each `impMatrix` prints its newline
and its divider without evaluating `i % D`, and `main` exits with status `0`. -/
theorem zero_case {α : Type} [Zero α] [Add α] [Mul α] [NatCast α] (rand : Nat → Nat)
    (t0 t1 : Timeval) (prog th : String) :
    multiMatrix ([] : List α) [] [] 0 = some ([], []) ∧
    (∀ (T : Nat) (sched : List Nat), ∃ cfg : Config α,
      multiMatrixPar (List.replicate T []) sched [] [] [] 0 = some cfg ∧
        cfg.mem.mC = [] ∧ cfg.log = []) ∧
    iniMatrix rand ([] : List α) [] 0 = some ([], [], 0) ∧
    impMatrix ([] : List α) 0 = some [Event.newline, Event.divider] ∧
    (main [prog, "0", th] rand t0 t1 : Option (Run α)) = some
      { exitCode := 0,
        trace := [Event.calloc 0, Event.calloc 0, Event.calloc 0, Event.srand,
                  Event.setNumThreads (atoi th), Event.iniMatrix,
                  Event.newline, Event.divider, Event.newline, Event.divider,
                  Event.inicioMuestra, Event.multiMatrix,
                  Event.timing (FinMuestra t1
                    (InicioMuestra t0 { inicio := ⟨0, 0⟩, fin := ⟨0, 0⟩ })).2,
                  Event.newline, Event.divider,
                  Event.free, Event.free, Event.free] } := by
  refine ⟨rfl, ?_, rfl, rfl, rfl⟩
  intro T sched
  obtain ⟨ws, h, _⟩ := runSchedule_no_rows ([] : List α) [] 0 sched
    (startConfig (List.replicate T []) [])
    (by
      intro w hw
      simp only [startConfig, List.map_replicate] at hw
      rw [List.eq_of_mem_replicate hw]
      exact ⟨rfl, Or.inl rfl⟩)
  exact ⟨_, h, rfl, rfl⟩

/-! ## The kernel run by two workers -/

/-- C2 fails on the code.  On the specification's scenario (`N = 2`,
`A = [[1,2],[3,4]]`, `B = [[5,6],[7,8]]`) with two workers, worker 0 on row 0 and worker
1 on row 1: when worker 0 finishes before worker 1 starts the result is
`[[19,22],[43,50]]`, as with one thread; when worker 1 executes `Suma = 0.0` between
worker 0's last accumulation and its store, the result is `[[0,22],[43,50]]`; and when
worker 0 moves the shared cursors while worker 1 is about to accumulate, worker 1 reads
outside `mB`. -/
theorem multiMatrix_schedule_changes_result :
    (multiMatrix [(1 : Nat), 2, 3, 4] [5, 6, 7, 8] [0, 0, 0, 0] 2).map Prod.fst
      = some [19, 22, 43, 50] ∧
    (multiMatrixPar [[0], [1]] (bursts [(0, 31), (1, 31)])
        [(1 : Nat), 2, 3, 4] [5, 6, 7, 8] [0, 0, 0, 0] 2).map
        (fun cfg => (cfg.finished, cfg.mem.mC))
      = some (true, [19, 22, 43, 50]) ∧
    (multiMatrixPar [[0], [1]] (bursts [(0, 14), (1, 5), (0, 1), (1, 26), (0, 16)])
        [(1 : Nat), 2, 3, 4] [5, 6, 7, 8] [0, 0, 0, 0] 2).map
        (fun cfg => (cfg.finished, cfg.mem.mC))
      = some (true, [0, 22, 43, 50]) ∧
    (multiMatrixPar [[0], [1]] (bursts [(0, 15), (1, 5), (0, 20), (1, 2)])
        [(1 : Nat), 2, 3, 4] [5, 6, 7, 8] [0, 0, 0, 0] 2).map
        (fun cfg => (cfg.finished, cfg.mem.mC))
      = none := by
  decide

/-- C5 fails on the code.  With `A = [[83,0],[77,15]]` on the left and the `2×2` identity
on the right, two workers (worker 0 on row 0, worker 1 on row 1): when worker 0 finishes
before worker 1 starts the result is `A`; when worker 1 executes `Suma = 0.0` between
worker 0's last accumulation and its store, the run ends with `C = [[0,0],[77,15]]`, which
is not `A`. -/
theorem multiMatrix_identity_schedule_changes_result :
    (multiMatrixPar [[0], [1]] (bursts [(0, 31), (1, 31)])
        [(83 : Nat), 0, 77, 15] (identityMatrix 2) [0, 0, 0, 0] 2).map
        (fun cfg => (cfg.finished, cfg.mem.mC))
      = some (true, [83, 0, 77, 15]) ∧
    (multiMatrixPar [[0], [1]] (bursts [(0, 14), (1, 5), (0, 1), (1, 26), (0, 16)])
        [(83 : Nat), 0, 77, 15] (identityMatrix 2) [0, 0, 0, 0] 2).map
        (fun cfg => (cfg.finished, cfg.mem.mC))
      = some (true, [0, 0, 77, 15]) ∧
    [(0 : Nat), 0, 77, 15] ≠ [83, 0, 77, 15] := by
  decide

/-- C10 fails on the code.  On the specification's scenario (`N = 2`, buffers of 4
elements) with two workers, worker 0 on row 0 and worker 1 on row 1: after worker 0 has
run 15 statements, worker 1 5, worker 0 20 and worker 1 1, worker 1 stands before the
dereferences of line 73 with `i = 1`, `j = 0`, `k = 0` while the shared cursors are
`pA = 2` and `pB = 5`, where the claim has `pB = j + k*N = 0`; `5` is not below `N*N = 4`,
and the next statement of worker 1 takes the out-of-bounds branch. -/
theorem multiMatrix_team_cursor_out_of_bounds :
    (multiMatrixPar [[0], [1]] (bursts [(0, 15), (1, 5), (0, 20), (1, 1)])
        [(1 : Nat), 2, 3, 4] [5, 6, 7, 8] [0, 0, 0, 0] 2).map
        (fun cfg => (cfg.workers[1]?, cfg.mem.pA, cfg.mem.pB))
      = some (some { i := 1, todo := [], j := 0, k := 0, pc := Pc.accum }, 2, 5) ∧
    ([(5 : Nat), 6, 7, 8])[5]? = none ∧
    (multiMatrixPar [[0], [1]] (bursts [(0, 15), (1, 5), (0, 20), (1, 1), (1, 1)])
        [(1 : Nat), 2, 3, 4] [5, 6, 7, 8] [0, 0, 0, 0] 2).isNone = true := by
  decide

/-- C3 fails on the code.  In the run of two workers on the specification's scenario in
which worker 0 finishes before worker 1 starts, the locations both workers store to are
the shared `Suma`, `pA` and `pB`; their stores into `mC` (cells 0, 1 and cells 2, 3) are
disjoint. -/
theorem multiMatrix_workers_store_shared :
    (multiMatrixPar [[0], [1]] (bursts [(0, 31), (1, 31)])
        [(1 : Nat), 2, 3, 4] [5, 6, 7, 8] [0, 0, 0, 0] 2).map
        (fun cfg => (cfg.finished, storedByBoth cfg.log 0 1,
          storedBy cfg.log 0, storedBy cfg.log 1))
      = some (true, [Loc.Suma, Loc.pA, Loc.pB],
          [Loc.mC 0, Loc.Suma, Loc.pA, Loc.pB, Loc.mC 1],
          [Loc.mC 2, Loc.Suma, Loc.pA, Loc.pB, Loc.mC 3]) := by
  decide

end MMClasica
